import Mathlib

/-!
Verification of the Nimbus SDK enrollment engine (`nimbus/src/enrollment.rs`).

This file contains a shallow embedding of the enrollment state machine, the
enrollments evolver and the persistence driver, translated from the Rust
source, together with theorems about the specified properties.

Modelling conventions:
* `uuid::Uuid` values are modelled as natural numbers; the engine only ever
  copies them, compares them, and stringifies them for telemetry events.
  The fresh UUID drawn by `Uuid::new_v4()` enters as an explicit parameter.
* `now_secs()` enters as an explicit `now : Nat` parameter (unix seconds,
  a `u64` value).
* The bucketing/targeting evaluator, the `Experiment` type, and the
  transactional key-value store live outside `enrollment.rs`; they are
  modelled from the spec (see the individual doc comments).
* A store transaction is modelled functionally: an operation returns the new
  database, and an `Except.error` result means the transaction aborts with
  no durable write.
-/

/-- Random 128-bit UUIDs (`uuid::Uuid`) modelled as natural numbers. -/
abbrev Uuid := Nat

/-- Reasons for being enrolled, from `enrollment.rs`. -/
inductive EnrolledReason where
  | Qualified
  | OptIn
deriving DecidableEq

/-- Reasons for not being enrolled, from `enrollment.rs`. -/
inductive NotEnrolledReason where
  | OptOut
  | NotSelected
  | NotTargeted
  | EnrollmentsPaused
deriving DecidableEq

/-- Reasons for disqualification, from `enrollment.rs`. -/
inductive DisqualifiedReason where
  | Error
  | OptOut
  | NotTargeted
deriving DecidableEq

/-- The enrollment status tagged union, from `enrollment.rs`. -/
inductive EnrollmentStatus where
  | Enrolled (enrollment_id : Uuid) (reason : EnrolledReason) (branch : String)
  | NotEnrolled (reason : NotEnrolledReason)
  | Disqualified (enrollment_id : Uuid) (reason : DisqualifiedReason) (branch : String)
  | WasEnrolled (enrollment_id : Uuid) (branch : String) (experiment_ended_at : Nat)
  | Error (reason : String)
deriving DecidableEq

/-- The persistent per-slug enrollment record, from `enrollment.rs`. -/
structure ExperimentEnrollment where
  slug : String
  status : EnrollmentStatus
deriving DecidableEq

/-- One treatment arm of an experiment (`crate::Branch`). -/
structure Branch where
  slug : String
  ratio : Nat
deriving DecidableEq

/-- Modelled from the spec: the `Experiment` type lives outside
`enrollment.rs`; only the fields consumed by the enrollment engine are
modelled (`slug`, `branches`, `is_enrollment_paused` and the two user-facing
strings).  The opaque bucketing/targeting configuration is consumed
exclusively by the evaluator, which is itself a parameter of the engine. -/
structure Experiment where
  slug : String
  branches : List Branch
  is_enrollment_paused : Bool
  user_facing_name : String
  user_facing_description : String
deriving DecidableEq

/-- Modelled from the spec: `Experiment::has_branch` lives outside
`enrollment.rs`; it decides whether `branch_slug` is among the experiment's
branches. -/
def Experiment.has_branch (e : Experiment) (branch_slug : String) : Bool :=
  e.branches.any (fun b => b.slug == branch_slug)

/-- Telemetry change event kinds, from `enrollment.rs`. -/
inductive EnrollmentChangeEventType where
  | Enrollment
  | Disqualification
  | Unenrollment
deriving DecidableEq

/-- Telemetry change event, from `enrollment.rs`.  The `enrollment_id` field
holds the stringified UUID, as in the source. -/
structure EnrollmentChangeEvent where
  experiment_slug : String
  branch_slug : String
  enrollment_id : String
  reason : Option String
  change : EnrollmentChangeEventType
deriving DecidableEq

/-- `EnrollmentChangeEvent::new`, from `enrollment.rs`. -/
def EnrollmentChangeEvent.new (slug : String) (enrollment_id : Uuid) (branch : String)
    (reason : Option String) (change : EnrollmentChangeEventType) : EnrollmentChangeEvent :=
  { experiment_slug := slug
    branch_slug := branch
    reason := reason
    enrollment_id := toString enrollment_id
    change := change }

/-- The error taxonomy of the crate (`crate::Error`), restricted to the
variants the enrollment engine produces or propagates. -/
inductive NimbusError where
  | NoSuchExperiment (slug : String)
  | NoSuchBranch (branch : String) (slug : String)
  | InternalError (msg : String)
  | EvaluatorError (msg : String)
deriving DecidableEq

/-- Modelled from the spec: the bucketing/targeting evaluator
(`evaluator.rs::evaluate_enrollment`) lives outside `enrollment.rs`.  It is a
deterministic, pure function; the evolver's fixed `nimbus_id`,
`available_randomization_units` and `app_context` arguments are folded into
the function. -/
abbrev Evaluator := Experiment → Except NimbusError ExperimentEnrollment

/-- The meta-store key for the global opt-in flag, from `enrollment.rs`. -/
def DB_KEY_GLOBAL_USER_PARTICIPATION : String := "user-opt-in"

/-- Default global user participation, from `enrollment.rs`. -/
def DEFAULT_GLOBAL_USER_PARTICIPATION : Bool := true

/-- Thirty days, in seconds (`PREVIOUS_ENROLLMENTS_GC_TIME`). -/
def PREVIOUS_ENROLLMENTS_GC_TIME : Nat := 30 * 24 * 3600

/-- `EnrollmentStatus::new_enrolled`; the fresh UUID drawn by
`Uuid::new_v4()` enters as the explicit parameter `fresh_id`. -/
def EnrollmentStatus.new_enrolled (fresh_id : Uuid) (reason : EnrolledReason)
    (branch : String) : EnrollmentStatus :=
  .Enrolled fresh_id reason branch

/-- `EnrollmentStatus::is_enrolled`, from `enrollment.rs`. -/
def EnrollmentStatus.is_enrolled : EnrollmentStatus → Bool
  | .Enrolled _ _ _ => true
  | _ => false

/-- `ExperimentEnrollment::get_change_event`, from `enrollment.rs`.  The
source marks the `NotEnrolled` and `Error` arms `unreachable!()`; they are
modelled as `none`, and no reachable call site hits them. -/
def get_change_event (e : ExperimentEnrollment) : Option EnrollmentChangeEvent :=
  match e.status with
  | .Enrolled enrollment_id _ branch =>
      some (EnrollmentChangeEvent.new e.slug enrollment_id branch none .Enrollment)
  | .WasEnrolled enrollment_id branch _ =>
      some (EnrollmentChangeEvent.new e.slug enrollment_id branch none .Unenrollment)
  | .Disqualified enrollment_id reason branch =>
      some (EnrollmentChangeEvent.new e.slug enrollment_id branch
        (match reason with
          | .NotTargeted => some ("targeting")
          | .OptOut => some ("optout")
          | .Error => some ("error"))
        .Disqualification)
  | .NotEnrolled _ => none
  | .Error _ => none

/-- `ExperimentEnrollment::from_new_experiment`, from `enrollment.rs`. -/
def from_new_experiment (evaluator : Evaluator) (is_user_participating : Bool)
    (experiment : Experiment) :
    Except NimbusError (ExperimentEnrollment × List EnrollmentChangeEvent) :=
  if !is_user_participating then
    .ok (⟨experiment.slug, .NotEnrolled .OptOut⟩, [])
  else if experiment.is_enrollment_paused then
    .ok (⟨experiment.slug, .NotEnrolled .EnrollmentsPaused⟩, [])
  else
    match evaluator experiment with
    | .error err => .error err
    | .ok enrollment =>
        .ok (enrollment,
          if enrollment.status.is_enrolled then (get_change_event enrollment).toList else [])

/-- `ExperimentEnrollment::from_explicit_opt_in`, from `enrollment.rs`. -/
def from_explicit_opt_in (fresh_id : Uuid) (experiment : Experiment) (branch_slug : String) :
    Except NimbusError (ExperimentEnrollment × List EnrollmentChangeEvent) :=
  if !(experiment.has_branch branch_slug) then
    .error (.NoSuchBranch branch_slug experiment.slug)
  else
    let enrollment : ExperimentEnrollment :=
      ⟨experiment.slug, EnrollmentStatus.new_enrolled fresh_id .OptIn branch_slug⟩
    .ok (enrollment, (get_change_event enrollment).toList)

/-- `ExperimentEnrollment::on_experiment_updated`, from `enrollment.rs`.
The final wildcard of the inner match covers the source's
`NotEnrolled{..} | Enrolled{..} | Disqualified{..} | WasEnrolled{..}` arm
(after the two earlier arms have matched `Error` and
`NotEnrolled(NotTargeted)`). -/
def on_experiment_updated (evaluator : Evaluator) (is_user_participating : Bool)
    (prior : ExperimentEnrollment) (updated_experiment : Experiment) :
    Except NimbusError (ExperimentEnrollment × List EnrollmentChangeEvent) :=
  match prior.status with
  | .NotEnrolled _ =>
      if !is_user_participating || updated_experiment.is_enrollment_paused then
        .ok (prior, [])
      else
        match evaluator updated_experiment with
        | .error err => .error err
        | .ok updated_enrollment =>
            .ok (updated_enrollment,
              if updated_enrollment.status.is_enrolled then
                (get_change_event updated_enrollment).toList
              else [])
  | .Enrolled enrollment_id _ branch =>
      if !is_user_participating then
        let updated_enrollment : ExperimentEnrollment :=
          ⟨prior.slug, .Disqualified enrollment_id .OptOut branch⟩
        .ok (updated_enrollment, (get_change_event updated_enrollment).toList)
      else if !(updated_experiment.has_branch branch) then
        let updated_enrollment : ExperimentEnrollment :=
          ⟨prior.slug, .Disqualified enrollment_id .Error branch⟩
        .ok (updated_enrollment, (get_change_event updated_enrollment).toList)
      else
        match evaluator updated_experiment with
        | .error err => .error err
        | .ok evaluated_enrollment =>
            match evaluated_enrollment.status with
            | .Error _ =>
                let updated_enrollment : ExperimentEnrollment :=
                  ⟨prior.slug, .Disqualified enrollment_id .Error branch⟩
                .ok (updated_enrollment, (get_change_event updated_enrollment).toList)
            | .NotEnrolled .NotTargeted =>
                let updated_enrollment : ExperimentEnrollment :=
                  ⟨prior.slug, .Disqualified enrollment_id .NotTargeted branch⟩
                .ok (updated_enrollment, (get_change_event updated_enrollment).toList)
            | _ => .ok (prior, [])
  | .Disqualified enrollment_id _ branch =>
      if !is_user_participating then
        .ok (⟨prior.slug, .Disqualified enrollment_id .OptOut branch⟩, [])
      else
        .ok (prior, [])
  | .WasEnrolled _ _ _ => .ok (prior, [])
  | .Error _ => .ok (prior, [])

/-- `ExperimentEnrollment::on_experiment_ended`, from `enrollment.rs`.
Returns the replacement record (`none` means delete) paired with the events
pushed to the accumulator. -/
def on_experiment_ended (now : Nat) (prior : ExperimentEnrollment) :
    Option ExperimentEnrollment × List EnrollmentChangeEvent :=
  match prior.status with
  | .Enrolled enrollment_id _ branch =>
      let enrollment : ExperimentEnrollment :=
        ⟨prior.slug, .WasEnrolled enrollment_id branch now⟩
      (some enrollment, (get_change_event enrollment).toList)
  | .Disqualified enrollment_id _ branch =>
      let enrollment : ExperimentEnrollment :=
        ⟨prior.slug, .WasEnrolled enrollment_id branch now⟩
      (some enrollment, (get_change_event enrollment).toList)
  | .NotEnrolled _ => (none, [])
  | .WasEnrolled _ _ _ => (none, [])
  | .Error _ => (none, [])

/-- `ExperimentEnrollment::on_explicit_opt_out`, from `enrollment.rs`.  The
source wraps the whole body in `Ok`; it never fails, so the result is pure. -/
def on_explicit_opt_out (prior : ExperimentEnrollment) :
    ExperimentEnrollment × List EnrollmentChangeEvent :=
  match prior.status with
  | .Enrolled enrollment_id _ branch =>
      let enrollment : ExperimentEnrollment :=
        ⟨prior.slug, .Disqualified enrollment_id .OptOut branch⟩
      (enrollment, (get_change_event enrollment).toList)
  | .NotEnrolled _ => (⟨prior.slug, .NotEnrolled .OptOut⟩, [])
  | .Disqualified _ _ _ => (prior, [])
  | .WasEnrolled _ _ _ => (prior, [])
  | .Error _ => (prior, [])

/-- Wrapping 64-bit subtraction: the release-mode semantics of the `u64`
subtraction `now_secs() - experiment_ended_at` in the source (a debug build
panics on the same underflow). -/
def u64_wrap_sub (a b : Nat) : Nat := (2 ^ 64 + a - b) % 2 ^ 64

/-- `ExperimentEnrollment::maybe_garbage_collect`, from `enrollment.rs`. -/
def maybe_garbage_collect (now : Nat) (prior : ExperimentEnrollment) :
    Option ExperimentEnrollment :=
  match prior.status with
  | .WasEnrolled _ _ experiment_ended_at =>
      if u64_wrap_sub now experiment_ended_at < PREVIOUS_ENROLLMENTS_GC_TIME then
        some prior
      else none
  | _ => none

/-- Modelled from the spec: insertion into a slug-keyed map (`HashMap::insert`
and the transactional store's `put` both overwrite an existing entry for the
key). -/
def storePut {α : Type} : List (String × α) → String → α → List (String × α)
  | [], k, v => [(k, v)]
  | (k', v') :: rest, k, v =>
      if k' = k then (k, v) :: rest else (k', v') :: storePut rest k v

/-- Modelled from the spec: lookup in a slug-keyed map (`HashMap::get` and
the transactional store's `get`). -/
def storeGet {α : Type} (k : String) : List (String × α) → Option α
  | [] => none
  | (k', v) :: rest => if k' = k then some v else storeGet k rest

/-- Builds a slug-keyed map from a list of values, inserting each value under
its own key; shared body of `map_experiments` and `map_enrollments`. -/
def storeOfValues {α : Type} (key : α → String) (l : List α) : List (String × α) :=
  l.foldl (fun m v => storePut m (key v) v) []

/-- `map_experiments`, from `enrollment.rs`. -/
def map_experiments (experiments : List Experiment) : List (String × Experiment) :=
  storeOfValues Experiment.slug experiments

/-- `map_enrollments`, from `enrollment.rs`. -/
def map_enrollments (enrollments : List ExperimentEnrollment) :
    List (String × ExperimentEnrollment) :=
  storeOfValues ExperimentEnrollment.slug enrollments

/-- `EnrollmentsEvolver::evolve_enrollment`, from `enrollment.rs`.  The
`(none, none, none)` case is `unreachable!()` in the source (the slug would
not be in the union that is iterated); it is modelled as producing no record
and no events, and no caller hits it. -/
def evolve_enrollment (evaluator : Evaluator) (now : Nat) (is_user_participating : Bool) :
    Option Experiment → Option Experiment → Option ExperimentEnrollment →
    Except NimbusError (Option ExperimentEnrollment × List EnrollmentChangeEvent)
  | none, some experiment, none =>
      match from_new_experiment evaluator is_user_participating experiment with
      | .error err => .error err
      | .ok (enrollment, events) => .ok (some enrollment, events)
  | some _, none, some enrollment => .ok (on_experiment_ended now enrollment)
  | some _, some experiment, some enrollment =>
      match on_experiment_updated evaluator is_user_participating enrollment experiment with
      | .error err => .error err
      | .ok (updated, events) => .ok (some updated, events)
  | none, none, some enrollment => .ok (maybe_garbage_collect now enrollment, [])
  | none, some _, some _ =>
      .error (.InternalError ("New experiment but enrollment already exists."))
  | some _, none, none =>
      .error (.InternalError ("Experiment in the db did not have an associated enrollment record."))
  | some _, some _, none =>
      .error (.InternalError ("Experiment in the db did not have an associated enrollment record."))
  | none, none, none => .ok (none, [])

/-- Removes duplicate slugs from the iteration list.  The source iterates a
`HashSet` whose order is unspecified; the spec mandates that the algorithm is
order-independent, so one linearization is chosen. -/
def dedup_slugs : List String → List String
  | [] => []
  | s :: rest => if s ∈ rest then dedup_slugs rest else s :: dedup_slugs rest

/-- The per-slug loop of `EnrollmentsEvolver::evolve_enrollments`: evolve
each slug in turn, collect the surviving records, and append the events in
the order they are produced. -/
def evolveSlugs
    (f : String → Except NimbusError (Option ExperimentEnrollment × List EnrollmentChangeEvent)) :
    List String → Except NimbusError (List ExperimentEnrollment × List EnrollmentChangeEvent)
  | [] => .ok ([], [])
  | s :: rest =>
      match f s with
      | .error err => .error err
      | .ok (updated, events) =>
          match evolveSlugs f rest with
          | .error err => .error err
          | .ok (updated_rest, events_rest) =>
              .ok (updated.toList ++ updated_rest, events ++ events_rest)

/-- `EnrollmentsEvolver::evolve_enrollments`, from `enrollment.rs`. -/
def evolve_enrollments (evaluator : Evaluator) (now : Nat) (is_user_participating : Bool)
    (existing_experiments updated_experiments : List Experiment)
    (existing_enrollments : List ExperimentEnrollment) :
    Except NimbusError (List ExperimentEnrollment × List EnrollmentChangeEvent) :=
  let existing_map := map_experiments existing_experiments
  let updated_map := map_experiments updated_experiments
  let enrollment_map := map_enrollments existing_enrollments
  let all_slugs := dedup_slugs
    (existing_map.map Prod.fst ++ updated_map.map Prod.fst ++ enrollment_map.map Prod.fst)
  evolveSlugs
    (fun slug => evolve_enrollment evaluator now is_user_participating
      (storeGet slug existing_map) (storeGet slug updated_map) (storeGet slug enrollment_map))
    all_slugs

/-- Modelled from the spec: the persistent store's three sub-stores
(`Experiments`, `Enrollments`, `Meta`), each a slug-keyed (resp. key-keyed)
map. -/
structure Database where
  experiments : List (String × Experiment)
  enrollments : List (String × ExperimentEnrollment)
  meta : List (String × Bool)
deriving DecidableEq

/-- `get_global_user_participation`, from `enrollment.rs`. -/
def get_global_user_participation (db : Database) : Bool :=
  match storeGet DB_KEY_GLOBAL_USER_PARTICIPATION db.meta with
  | some opted_in => opted_in
  | none => DEFAULT_GLOBAL_USER_PARTICIPATION

/-- `set_global_user_participation`, from `enrollment.rs`. -/
def set_global_user_participation (db : Database) (opt_in : Bool) : Database :=
  { db with meta := storePut db.meta DB_KEY_GLOBAL_USER_PARTICIPATION opt_in }

/-- The experiments write loop of `evolve_enrollments_in_db`: for each
updated experiment, first check that it has an updated enrollment (else fail
with `InternalError`, aborting the transaction), then write it keyed by its
slug. -/
def write_experiments (updated_enrollments : List (String × ExperimentEnrollment)) :
    List Experiment → List (String × Experiment) →
    Except NimbusError (List (String × Experiment))
  | [], store => .ok store
  | experiment :: rest, store =>
      if (storeGet experiment.slug updated_enrollments).isSome then
        write_experiments updated_enrollments rest (storePut store experiment.slug experiment)
      else
        .error (.InternalError ("An experiment must always have an associated enrollment."))

/-- `EnrollmentsEvolver::evolve_enrollments_in_db`, from `enrollment.rs`.
Clearing a sub-store and then writing every updated entry keyed by its slug
amounts to replacing the sub-store by the corresponding map; the source
writes enrollments before the sanity-checked experiments loop, but an error
aborts the transaction, so nothing durable is written on failure. -/
def evolve_enrollments_in_db (evaluator : Evaluator) (now : Nat) (db : Database)
    (updated_experiments : List Experiment) :
    Except NimbusError (Database × List EnrollmentChangeEvent) :=
  let is_user_participating := get_global_user_participation db
  let existing_experiments := db.experiments.map Prod.snd
  let existing_enrollments := db.enrollments.map Prod.snd
  match evolve_enrollments evaluator now is_user_participating
      existing_experiments updated_experiments existing_enrollments with
  | .error err => .error err
  | .ok (updated_enrollments, events) =>
      let updated_map := map_enrollments updated_enrollments
      match write_experiments updated_map updated_experiments [] with
      | .error err => .error err
      | .ok experiments_store =>
          .ok ({ db with experiments := experiments_store, enrollments := updated_map },
            events)

/-- `opt_in_with_branch`, from `enrollment.rs`.  The fresh UUID drawn inside
`from_explicit_opt_in` enters as the explicit parameter `fresh_id`. -/
def opt_in_with_branch (fresh_id : Uuid) (db : Database) (experiment_slug : String)
    (branch : String) : Except NimbusError (Database × List EnrollmentChangeEvent) :=
  match storeGet experiment_slug db.experiments with
  | none => .error (.NoSuchExperiment experiment_slug)
  | some exp =>
      match from_explicit_opt_in fresh_id exp branch with
      | .error err => .error err
      | .ok (enrollment, events) =>
          .ok ({ db with enrollments := storePut db.enrollments experiment_slug enrollment },
            events)

/-- `opt_out`, from `enrollment.rs`. -/
def opt_out (db : Database) (experiment_slug : String) :
    Except NimbusError (Database × List EnrollmentChangeEvent) :=
  match storeGet experiment_slug db.enrollments with
  | none => .error (.NoSuchExperiment experiment_slug)
  | some existing_enrollment =>
      let (updated_enrollment, events) := on_explicit_opt_out existing_enrollment
      .ok ({ db with
              enrollments := storePut db.enrollments experiment_slug updated_enrollment },
        events)

/-- The record component of a per-slug evolution result (`none` on error;
an error aborts the whole evolution, so the value is irrelevant there). -/
def updatedOf
    (r : Except NimbusError (Option ExperimentEnrollment × List EnrollmentChangeEvent)) :
    Option ExperimentEnrollment :=
  match r with
  | .ok p => p.1
  | .error _ => none

/-- The events component of a per-slug evolution result. -/
def eventsOf
    (r : Except NimbusError (Option ExperimentEnrollment × List EnrollmentChangeEvent)) :
    List EnrollmentChangeEvent :=
  match r with
  | .ok p => p.2
  | .error _ => []

/-- Modelled from the spec: part of the evaluator contract — the record
returned by `evaluate_enrollment` carries the slug of the experiment it was
evaluated for. -/
def evaluator_returns_slug (evaluator : Evaluator) : Prop :=
  ∀ experiment enrollment, evaluator experiment = .ok enrollment →
    enrollment.slug = experiment.slug

/-- Modelled from the spec: part of the evaluator contract — when the
evaluator yields an `Enrolled` verdict, the chosen branch is one of the
experiment's branches (bucketing maps the randomization unit to a branch of
the experiment). -/
def evaluator_branches_exist (evaluator : Evaluator) : Prop :=
  ∀ experiment enrollment enrollment_id reason branch,
    evaluator experiment = .ok enrollment →
    enrollment.status = .Enrolled enrollment_id reason branch →
    experiment.has_branch branch = true

/-- The enrollment id carried by a status, if any (`Enrolled`,
`Disqualified` and `WasEnrolled` carry one). -/
def enrollment_id_of : EnrollmentStatus → Option Uuid
  | .Enrolled enrollment_id _ _ => some enrollment_id
  | .Disqualified enrollment_id _ _ => some enrollment_id
  | .WasEnrolled enrollment_id _ _ => some enrollment_id
  | .NotEnrolled _ => none
  | .Error _ => none

/-- Well-formedness of a sub-store: every entry is keyed by its record's own
slug, and keys are unique.  Both write paths of the engine preserve this. -/
def store_wf {α : Type} (key : α → String) (st : List (String × α)) : Prop :=
  (∀ p ∈ st, p.1 = key p.2) ∧ (st.map Prod.fst).Nodup

/-- One update-driven transition applied to a single enrollment record: any
of `on_experiment_updated` (with any evaluator, participation flag and
experiment), `on_explicit_opt_out`, `on_experiment_ended` or
`maybe_garbage_collect`.  The result is the surviving record, or `none` for
deletion. -/
inductive UpdateStep (e : ExperimentEnrollment) : Option ExperimentEnrollment → Prop where
  | updated (evaluator : Evaluator) (is_user_participating : Bool)
      (experiment : Experiment) (r : ExperimentEnrollment)
      (events : List EnrollmentChangeEvent)
      (h : on_experiment_updated evaluator is_user_participating e experiment =
        .ok (r, events)) : UpdateStep e (some r)
  | optedOut (r : ExperimentEnrollment) (events : List EnrollmentChangeEvent)
      (h : on_explicit_opt_out e = (r, events)) : UpdateStep e (some r)
  | ended (now : Nat) : UpdateStep e (on_experiment_ended now e).1
  | collected (now : Nat) : UpdateStep e (maybe_garbage_collect now e)

/-- Reachability by a sequence of update-driven transitions, starting from a
record `e₀`; `none` means the record has been deleted (and no further
transitions apply). -/
inductive UpdateReach (e₀ : ExperimentEnrollment) : Option ExperimentEnrollment → Prop where
  | refl : UpdateReach e₀ (some e₀)
  | step (e : ExperimentEnrollment) (o : Option ExperimentEnrollment)
      (hr : UpdateReach e₀ (some e)) (hs : UpdateStep e o) : UpdateReach e₀ o

/-- A fixed deterministic evaluator used as a concrete witness: the user is
never selected. -/
def trivial_evaluator : Evaluator :=
  fun experiment => .ok ⟨experiment.slug, .NotEnrolled .NotSelected⟩

/-- A fixed deterministic evaluator used as a concrete witness: the user is
always bucketed into the branch called `control`. -/
def control_evaluator : Evaluator :=
  fun experiment => .ok ⟨experiment.slug, .Enrolled 3 .Qualified ("control")⟩

/-- A broken evaluator used as a concrete witness for the sanity check: it
returns a record for the wrong slug. -/
def bad_slug_evaluator : Evaluator :=
  fun _ => .ok ⟨"other", .NotEnrolled .NotSelected⟩

/-- A concrete experiment used by witnesses. -/
def expA : Experiment :=
  { slug := "exp-a"
    branches := [⟨"control", 1⟩, ⟨"treatment", 1⟩]
    is_enrollment_paused := false
    user_facing_name := "Experiment A"
    user_facing_description := "A concrete test experiment" }

/-! ### Store lemmas -/

theorem storeGet_storePut {α : Type} (m : List (String × α)) (k s : String) (v : α) :
    storeGet s (storePut m k v) = if k = s then some v else storeGet s m := by
  induction m with
  | nil => simp [storePut, storeGet]
  | cons p rest ih =>
      obtain ⟨k', v'⟩ := p
      by_cases hk : k' = k
      · subst hk
        simp only [storePut, if_pos rfl, storeGet]
        by_cases hs : k' = s <;> simp [storeGet, hs]
      · simp only [storePut, if_neg hk]
        by_cases hs : k' = s
        · subst hs
          have hks : ¬ k = k' := fun h => hk h.symm
          simp [storeGet, if_neg hks, hks]
        · simp [storeGet, if_neg hs, ih]

theorem storePut_of_not_mem {α : Type} (m : List (String × α)) (k : String) (v : α)
    (h : k ∉ m.map Prod.fst) : storePut m k v = m ++ [(k, v)] := by
  induction m with
  | nil => simp [storePut]
  | cons p rest ih =>
      obtain ⟨k', v'⟩ := p
      simp only [List.map_cons, List.mem_cons] at h
      push_neg at h
      have hne : k' ≠ k := fun hh => h.1 hh.symm
      simp [storePut, if_neg hne, ih h.2]

theorem mem_storePut {α : Type} (m : List (String × α)) (k : String) (v : α)
    (p : String × α) : p ∈ storePut m k v → p ∈ m ∨ p = (k, v) := by
  induction m with
  | nil =>
      intro h
      simp only [storePut, List.mem_singleton] at h
      exact Or.inr h
  | cons q rest ih =>
      obtain ⟨k', v'⟩ := q
      intro h
      simp only [storePut] at h
      split at h
      · rcases List.mem_cons.mp h with h | h
        · right; exact h
        · left; exact List.mem_cons_of_mem _ h
      · rcases List.mem_cons.mp h with h | h
        · left; simp [h]
        · rcases ih h with h' | h'
          · left; exact List.mem_cons_of_mem _ h'
          · right; exact h'

theorem keys_storePut_nodup {α : Type} (m : List (String × α)) (k : String) (v : α) :
    (m.map Prod.fst).Nodup → ((storePut m k v).map Prod.fst).Nodup := by
  induction m with
  | nil => intro _; simp [storePut]
  | cons q rest ih =>
      obtain ⟨k', v'⟩ := q
      intro h
      simp only [List.map_cons, List.nodup_cons] at h
      simp only [storePut]
      split
      next heq =>
        subst heq
        simp only [List.map_cons, List.nodup_cons]
        exact h
      next hne =>
        simp only [List.map_cons, List.nodup_cons]
        refine ⟨fun hc => ?_, ih h.2⟩
        rw [List.mem_map] at hc
        obtain ⟨p, hp, hpk⟩ := hc
        rcases mem_storePut rest k v p hp with h' | h'
        · exact h.1 (hpk ▸ List.mem_map_of_mem Prod.fst h')
        · subst h'
          exact hne hpk.symm

theorem keys_storeOfValues_nodup {α : Type} (key : α → String) (l : List α) :
    ((storeOfValues key l).map Prod.fst).Nodup := by
  suffices h : ∀ acc : List (String × α), (acc.map Prod.fst).Nodup →
      ((l.foldl (fun m v => storePut m (key v) v) acc).map Prod.fst).Nodup by
    exact h [] (by simp)
  induction l with
  | nil => intro acc hacc; simpa using hacc
  | cons x t ih =>
      intro acc hacc
      exact ih _ (keys_storePut_nodup acc (key x) x hacc)

theorem mem_storeOfValues_wf {α : Type} (key : α → String) (l : List α) :
    ∀ p ∈ storeOfValues key l, p.1 = key p.2 := by
  suffices h : ∀ acc : List (String × α), (∀ p ∈ acc, p.1 = key p.2) →
      ∀ p ∈ l.foldl (fun m v => storePut m (key v) v) acc, p.1 = key p.2 by
    exact h [] (by simp)
  induction l with
  | nil => intro acc hacc; simpa using hacc
  | cons x t ih =>
      intro acc hacc
      refine ih _ (fun p hp => ?_)
      rcases mem_storePut acc (key x) x p hp with h' | h'
      · exact hacc p h'
      · simp [h']

theorem foldl_storePut_append {α : Type} (key : α → String) (l : List α) :
    ∀ acc : List (String × α), (l.map key).Nodup →
      (∀ v ∈ l, key v ∉ acc.map Prod.fst) →
      l.foldl (fun m v => storePut m (key v) v) acc = acc ++ l.map (fun v => (key v, v)) := by
  induction l with
  | nil => intro acc _ _; simp
  | cons x t ih =>
      intro acc hnd hdisj
      simp only [List.map_cons, List.nodup_cons] at hnd
      have hput : storePut acc (key x) x = acc ++ [(key x, x)] :=
        storePut_of_not_mem acc (key x) x (hdisj x (List.mem_cons_self x t))
      simp only [List.foldl_cons, hput]
      rw [ih (acc ++ [(key x, x)]) hnd.2 ?_]
      · simp
      · intro v hv
        simp only [List.map_append, List.mem_append]
        push_neg
        refine ⟨hdisj v (List.mem_cons_of_mem x hv), ?_⟩
        simp only [List.map_cons, List.map_nil, List.mem_singleton]
        intro hkv
        exact hnd.1 (hkv ▸ List.mem_map_of_mem key hv)

theorem storeOfValues_eq_map {α : Type} (key : α → String) (l : List α)
    (hnd : (l.map key).Nodup) :
    storeOfValues key l = l.map (fun v => (key v, v)) := by
  have := foldl_storePut_append key l [] hnd (by simp)
  simpa [storeOfValues] using this

theorem storeOfValues_roundtrip {α : Type} (key : α → String) (st : List (String × α))
    (hwf : ∀ p ∈ st, p.1 = key p.2) (hnd : (st.map Prod.fst).Nodup) :
    storeOfValues key (st.map Prod.snd) = st := by
  have hkeys : (st.map Prod.snd).map key = st.map Prod.fst := by
    rw [List.map_map]
    exact (List.map_congr_left (fun p hp => (hwf p hp).symm))
  rw [storeOfValues_eq_map key _ (by rw [hkeys]; exact hnd)]
  rw [List.map_map]
  have : ∀ p ∈ st, ((fun v => (key v, v)) ∘ Prod.snd) p = id p := by
    intro p hp
    simp [Function.comp, ← hwf p hp]
  rw [List.map_congr_left this, List.map_id]

theorem storeGet_eq_none_of_not_mem {α : Type} (m : List (String × α)) (s : String)
    (h : s ∉ m.map Prod.fst) : storeGet s m = none := by
  induction m with
  | nil => rfl
  | cons p rest ih =>
      obtain ⟨k, v⟩ := p
      simp only [List.map_cons, List.mem_cons] at h
      push_neg at h
      have : k ≠ s := fun hh => h.1 hh.symm
      simp [storeGet, if_neg this, ih h.2]

theorem storeGet_mem {α : Type} (m : List (String × α)) (s : String) (v : α) :
    storeGet s m = some v → (s, v) ∈ m := by
  induction m with
  | nil => intro h; simp [storeGet] at h
  | cons p rest ih =>
      obtain ⟨k, w⟩ := p
      intro h
      simp only [storeGet] at h
      split at h
      next heq =>
        subst heq
        simp only [Option.some.injEq] at h
        simp [h]
      next hne =>
        exact List.mem_cons_of_mem _ (ih h)

theorem storeGet_storeOfValues_slug {α : Type} (key : α → String) (l : List α)
    (s : String) (v : α) (h : storeGet s (storeOfValues key l) = some v) : key v = s := by
  have hmem := storeGet_mem _ _ _ h
  exact (mem_storeOfValues_wf key l (s, v) hmem).symm

theorem isSome_storeGet_foldl {α : Type} (key : α → String) (l : List α) :
    ∀ acc : List (String × α), ∀ s : String,
      (storeGet s (l.foldl (fun m v => storePut m (key v) v) acc)).isSome →
      (storeGet s acc).isSome ∨ ∃ v ∈ l, key v = s := by
  induction l with
  | nil => intro acc s h; exact Or.inl h
  | cons x t ih =>
      intro acc s h
      rcases ih (storePut acc (key x) x) s h with h' | h'
      · rw [storeGet_storePut] at h'
        by_cases hk : key x = s
        · exact Or.inr ⟨x, List.mem_cons_self x t, hk⟩
        · rw [if_neg hk] at h'
          exact Or.inl h'
      · obtain ⟨v, hv, hkv⟩ := h'
        exact Or.inr ⟨v, List.mem_cons_of_mem x hv, hkv⟩

/-! ### Deduplication lemmas -/

theorem mem_dedup_slugs (l : List String) (s : String) : s ∈ dedup_slugs l ↔ s ∈ l := by
  induction l with
  | nil => simp [dedup_slugs]
  | cons x t ih =>
      by_cases hx : x ∈ t
      · simp only [dedup_slugs, if_pos hx, ih, List.mem_cons]
        constructor
        · exact Or.inr
        · rintro (rfl | h)
          · exact hx
          · exact h
      · simp [dedup_slugs, if_neg hx, ih]

theorem nodup_dedup_slugs (l : List String) : (dedup_slugs l).Nodup := by
  induction l with
  | nil => simp [dedup_slugs]
  | cons x t ih =>
      by_cases hx : x ∈ t
      · simpa [dedup_slugs, if_pos hx] using ih
      · simp only [dedup_slugs, if_neg hx, List.nodup_cons]
        exact ⟨fun hc => hx ((mem_dedup_slugs t x).mp hc), ih⟩

/-! ### Lookup characterization for evolved stores -/

theorem filterMap_keys_eq {α : Type} (key : α → String) (out : String → Option α) :
    ∀ slugs : List String, (∀ s' ∈ slugs, ∀ r, out s' = some r → key r = s') →
      (slugs.filterMap out).map key = slugs.filter (fun s' => (out s').isSome) := by
  intro slugs
  induction slugs with
  | nil => intro _; rfl
  | cons t ts ih =>
      intro hkey
      have hkey' : ∀ s' ∈ ts, ∀ r, out s' = some r → key r = s' :=
        fun s' hs' => hkey s' (List.mem_cons_of_mem t hs')
      rw [List.filterMap_cons]
      cases hout : out t with
      | none => simp [List.filter_cons, hout, ih hkey']
      | some r =>
          have hr : key r = t := hkey t (List.mem_cons_self t ts) r hout
          simp [List.filter_cons, hout, ih hkey', hr]

theorem storeGet_map_pairs_filterMap {α : Type} (key : α → String) (out : String → Option α)
    (s : String) : ∀ slugs : List String, slugs.Nodup →
      (∀ s' ∈ slugs, ∀ r, out s' = some r → key r = s') →
      storeGet s ((slugs.filterMap out).map (fun v => (key v, v))) =
        if s ∈ slugs then out s else none := by
  intro slugs
  induction slugs with
  | nil => intro _ _; simp [storeGet]
  | cons t ts ih =>
      intro hnd hkey
      have hnd' := List.nodup_cons.mp hnd
      have hkey' : ∀ s' ∈ ts, ∀ r, out s' = some r → key r = s' :=
        fun s' hs' => hkey s' (List.mem_cons_of_mem t hs')
      rw [List.filterMap_cons]
      cases hout : out t with
      | none =>
          rw [ih hnd'.2 hkey']
          by_cases hts : s = t
          · subst hts
            simp [hout, hnd'.1]
          · simp [List.mem_cons, hts]
      | some r =>
          have hr : key r = t := hkey t (List.mem_cons_self t ts) r hout
          rw [List.map_cons]
          by_cases hts : s = t
          · subst hts
            simp only [storeGet, hr, if_pos rfl]
            simp [hout]
          · have : key r ≠ s := fun hc => hts ((hc.symm.trans hr).symm ▸ (hr ▸ hc).symm ▸ rfl)
            simp only [storeGet, hr]
            rw [if_neg (fun hc => hts hc.symm)]
            rw [ih hnd'.2 hkey']
            simp [List.mem_cons, hts]

theorem storeGet_storeOfValues_out {α : Type} (key : α → String) (out : String → Option α)
    (slugs : List String) (hnd : slugs.Nodup)
    (hkey : ∀ s' ∈ slugs, ∀ r, out s' = some r → key r = s') (s : String) :
    storeGet s (storeOfValues key (slugs.filterMap out)) =
      if s ∈ slugs then out s else none := by
  rw [storeOfValues_eq_map key _ ?_]
  · exact storeGet_map_pairs_filterMap key out s slugs hnd hkey
  · rw [filterMap_keys_eq key out slugs hkey]
    exact hnd.filter _

/-! ### The per-slug evolution loop -/

theorem evolveSlugs_ok
    (f : String → Except NimbusError (Option ExperimentEnrollment × List EnrollmentChangeEvent)) :
    ∀ slugs us evs, evolveSlugs f slugs = .ok (us, evs) →
      (∀ s ∈ slugs, ∃ p, f s = .ok p) ∧
      us = slugs.filterMap (fun s => updatedOf (f s)) ∧
      evs = (slugs.map (fun s => eventsOf (f s))).flatten := by
  intro slugs
  induction slugs with
  | nil =>
      intro us evs h
      simp only [evolveSlugs, Except.ok.injEq] at h
      obtain ⟨h1, h2⟩ := Prod.mk.injEq .. ▸ h
      refine ⟨by simp, ?_, ?_⟩ <;> simp_all
  | cons t ts ih =>
      intro us evs h
      simp only [evolveSlugs] at h
      cases hft : f t with
      | error err => rw [hft] at h; exact absurd h (by simp)
      | ok p =>
          obtain ⟨u, ev⟩ := p
          rw [hft] at h
          cases hrest : evolveSlugs f ts with
          | error err => rw [hrest] at h; exact absurd h (by simp)
          | ok q =>
              obtain ⟨us', evs'⟩ := q
              rw [hrest] at h
              simp only [Except.ok.injEq, Prod.mk.injEq] at h
              obtain ⟨hu, he⟩ := h
              obtain ⟨hall, hus, hevs⟩ := ih us' evs' hrest
              refine ⟨?_, ?_, ?_⟩
              · intro s hs
                rcases List.mem_cons.mp hs with rfl | hs'
                · exact ⟨(u, ev), hft⟩
                · exact hall s hs'
              · rw [← hu, List.filterMap_cons, hft]
                cases u <;> simp [updatedOf, hus]
              · rw [← he, List.map_cons, List.flatten_cons, hft]
                simp [eventsOf, hevs]

theorem evolveSlugs_ok_of
    (f : String → Except NimbusError (Option ExperimentEnrollment × List EnrollmentChangeEvent)) :
    ∀ slugs : List String, (∀ s ∈ slugs, ∃ p, f s = .ok p) →
      evolveSlugs f slugs =
        .ok (slugs.filterMap (fun s => updatedOf (f s)),
          (slugs.map (fun s => eventsOf (f s))).flatten) := by
  intro slugs
  induction slugs with
  | nil => intro _; rfl
  | cons t ts ih =>
      intro hall
      obtain ⟨⟨u, ev⟩, hft⟩ := hall t (List.mem_cons_self t ts)
      have hrest := ih (fun s hs => hall s (List.mem_cons_of_mem t hs))
      simp only [evolveSlugs, hft, hrest]
      rw [List.filterMap_cons, List.map_cons, List.flatten_cons, hft]
      cases u <;> simp [updatedOf, eventsOf]

/-! ### The experiments write loop -/

theorem write_experiments_ok (m : List (String × ExperimentEnrollment)) :
    ∀ (l : List Experiment) (acc store : List (String × Experiment)),
      write_experiments m l acc = .ok store →
      (∀ x ∈ l, (storeGet x.slug m).isSome) ∧
      store = l.foldl (fun st x => storePut st x.slug x) acc := by
  intro l
  induction l with
  | nil =>
      intro acc store h
      simp only [write_experiments, Except.ok.injEq] at h
      exact ⟨by simp, by simp [h.symm]⟩
  | cons x t ih =>
      intro acc store h
      simp only [write_experiments] at h
      split at h
      next hsome =>
        obtain ⟨hall, hstore⟩ := ih (storePut acc x.slug x) store h
        refine ⟨?_, by simpa using hstore⟩
        intro y hy
        rcases List.mem_cons.mp hy with rfl | hy'
        · exact hsome
        · exact hall y hy'
      next => exact absurd h (by simp)

theorem write_experiments_ok_of (m : List (String × ExperimentEnrollment)) :
    ∀ (l : List Experiment) (acc : List (String × Experiment)),
      (∀ x ∈ l, (storeGet x.slug m).isSome) →
      write_experiments m l acc = .ok (l.foldl (fun st x => storePut st x.slug x) acc) := by
  intro l
  induction l with
  | nil => intro acc _; rfl
  | cons x t ih =>
      intro acc hall
      simp only [write_experiments, List.foldl_cons]
      rw [if_pos (hall x (List.mem_cons_self x t))]
      exact ih _ (fun y hy => hall y (List.mem_cons_of_mem x hy))

theorem write_experiments_fails (m : List (String × ExperimentEnrollment)) :
    ∀ (l : List Experiment) (acc : List (String × Experiment)),
      (∃ x ∈ l, storeGet x.slug m = none) →
      write_experiments m l acc =
        .error (.InternalError ("An experiment must always have an associated enrollment.")) := by
  intro l
  induction l with
  | nil => rintro acc ⟨x, hx, _⟩; exact absurd hx (by simp)
  | cons x t ih =>
      rintro acc ⟨y, hy, hnone⟩
      simp only [write_experiments]
      rcases List.mem_cons.mp hy with rfl | hy'
      · rw [if_neg (by simp [hnone])]
      · by_cases hx : (storeGet x.slug m).isSome
        · rw [if_pos hx]
          exact ih _ ⟨y, hy', hnone⟩
        · rw [if_neg hx]

/-! ### Arithmetic facts about the wrapping subtraction -/

theorem u64_wrap_sub_self (a : Nat) : u64_wrap_sub a a = 0 := by
  unfold u64_wrap_sub
  have h : 2 ^ 64 + a - a = 2 ^ 64 := by omega
  rw [h, Nat.mod_self]

theorem u64_wrap_sub_of_le (a b : Nat) (h : b ≤ a) (ha : a < 2 ^ 64) :
    u64_wrap_sub a b = a - b := by
  unfold u64_wrap_sub
  rw [Nat.add_sub_assoc h, Nat.add_mod_left]
  exact Nat.mod_eq_of_lt (by omega)

theorem u64_wrap_sub_of_lt (a b : Nat) (h : a < b) (hb : b ≤ 2 ^ 64) :
    u64_wrap_sub a b = 2 ^ 64 - (b - a) := by
  unfold u64_wrap_sub
  have h1 : 2 ^ 64 + a - b = 2 ^ 64 - (b - a) := by omega
  rw [h1]
  exact Nat.mod_eq_of_lt (by omega)

theorem gc_time_pos : 0 < PREVIOUS_ENROLLMENTS_GC_TIME := by
  norm_num [PREVIOUS_ENROLLMENTS_GC_TIME]

theorem maybe_garbage_collect_keeps_now (now : Nat) (s b : String) (i : Uuid) :
    maybe_garbage_collect now ⟨s, .WasEnrolled i b now⟩ = some ⟨s, .WasEnrolled i b now⟩ := by
  simp only [maybe_garbage_collect, u64_wrap_sub_self]
  rw [if_pos gc_time_pos]

theorem maybe_garbage_collect_some (now : Nat) (prior r : ExperimentEnrollment) :
    maybe_garbage_collect now prior = some r → r = prior := by
  intro h
  unfold maybe_garbage_collect at h
  split at h
  · split at h
    · exact (Option.some.injEq .. ▸ h).symm
    · exact absurd h (by simp)
  · exact absurd h (by simp)

/-! ### Slug correctness of the transition functions -/

theorem from_new_experiment_slug (evaluator : Evaluator) (p : Bool) (experiment : Experiment)
    (r : ExperimentEnrollment) (evs : List EnrollmentChangeEvent)
    (hE : evaluator_returns_slug evaluator)
    (h : from_new_experiment evaluator p experiment = .ok (r, evs)) :
    r.slug = experiment.slug := by
  simp only [from_new_experiment] at h
  split at h
  · simp only [Except.ok.injEq, Prod.mk.injEq] at h
    obtain ⟨h1, -⟩ := h
    subst h1
    rfl
  · split at h
    · simp only [Except.ok.injEq, Prod.mk.injEq] at h
      obtain ⟨h1, -⟩ := h
      subst h1
      rfl
    · split at h
      next => exact absurd h (by simp)
      next v hv =>
        simp only [Except.ok.injEq, Prod.mk.injEq] at h
        obtain ⟨h1, -⟩ := h
        rw [← h1]
        exact hE experiment v hv

theorem on_experiment_updated_slug (evaluator : Evaluator) (p : Bool)
    (prior : ExperimentEnrollment) (experiment : Experiment)
    (r : ExperimentEnrollment) (evs : List EnrollmentChangeEvent)
    (hE : evaluator_returns_slug evaluator)
    (h : on_experiment_updated evaluator p prior experiment = .ok (r, evs)) :
    r.slug = prior.slug ∨ r.slug = experiment.slug := by
  cases hst : prior.status with
  | NotEnrolled reason =>
      simp only [on_experiment_updated, hst] at h
      split at h
      · simp only [Except.ok.injEq, Prod.mk.injEq] at h
        obtain ⟨h1, -⟩ := h
        subst h1
        exact Or.inl rfl
      · split at h
        next => exact absurd h (by simp)
        next v hv =>
          simp only [Except.ok.injEq, Prod.mk.injEq] at h
          obtain ⟨h1, -⟩ := h
          refine Or.inr ?_
          rw [← h1]
          exact hE experiment v hv
  | Enrolled i reason branch =>
      simp only [on_experiment_updated, hst] at h
      split at h
      · simp only [Except.ok.injEq, Prod.mk.injEq] at h
        obtain ⟨h1, -⟩ := h
        subst h1
        exact Or.inl rfl
      · split at h
        · simp only [Except.ok.injEq, Prod.mk.injEq] at h
          obtain ⟨h1, -⟩ := h
          subst h1
          exact Or.inl rfl
        · split at h
          next => exact absurd h (by simp)
          next v hv =>
            split at h <;>
              (simp only [Except.ok.injEq, Prod.mk.injEq] at h
               obtain ⟨h1, -⟩ := h
               subst h1
               exact Or.inl rfl)
  | Disqualified i reason branch =>
      simp only [on_experiment_updated, hst] at h
      split at h <;>
        (simp only [Except.ok.injEq, Prod.mk.injEq] at h
         obtain ⟨h1, -⟩ := h
         subst h1
         exact Or.inl rfl)
  | WasEnrolled i branch t =>
      simp only [on_experiment_updated, hst, Except.ok.injEq, Prod.mk.injEq] at h
      obtain ⟨h1, -⟩ := h
      subst h1
      exact Or.inl rfl
  | Error msg =>
      simp only [on_experiment_updated, hst, Except.ok.injEq, Prod.mk.injEq] at h
      obtain ⟨h1, -⟩ := h
      subst h1
      exact Or.inl rfl

theorem on_experiment_ended_slug (now : Nat) (prior r : ExperimentEnrollment)
    (h : (on_experiment_ended now prior).1 = some r) : r.slug = prior.slug := by
  unfold on_experiment_ended at h
  cases hst : prior.status with
  | Enrolled i reason branch =>
      simp only [hst, Option.some.injEq] at h
      rw [← h]
  | Disqualified i reason branch =>
      simp only [hst, Option.some.injEq] at h
      rw [← h]
  | NotEnrolled reason => simp [hst] at h
  | WasEnrolled i branch t => simp [hst] at h
  | Error msg => simp [hst] at h

/-! ### Preservation of the enrollment id by the transition functions -/

theorem on_experiment_updated_id (evaluator : Evaluator) (p : Bool)
    (prior : ExperimentEnrollment) (experiment : Experiment)
    (r : ExperimentEnrollment) (evs : List EnrollmentChangeEvent) (i : Uuid)
    (h : on_experiment_updated evaluator p prior experiment = .ok (r, evs))
    (hid : enrollment_id_of prior.status = some i) :
    enrollment_id_of r.status = some i := by
  cases hst : prior.status with
  | NotEnrolled reason => rw [hst] at hid; exact absurd hid (by simp [enrollment_id_of])
  | Error msg => rw [hst] at hid; exact absurd hid (by simp [enrollment_id_of])
  | Enrolled i' reason branch =>
      rw [hst] at hid
      simp only [enrollment_id_of, Option.some.injEq] at hid
      subst hid
      simp only [on_experiment_updated, hst] at h
      split at h
      · simp only [Except.ok.injEq, Prod.mk.injEq] at h
        obtain ⟨h1, -⟩ := h
        subst h1
        rfl
      · split at h
        · simp only [Except.ok.injEq, Prod.mk.injEq] at h
          obtain ⟨h1, -⟩ := h
          subst h1
          rfl
        · split at h
          next => exact absurd h (by simp)
          next v hv =>
            split at h <;>
              (simp only [Except.ok.injEq, Prod.mk.injEq] at h
               obtain ⟨h1, -⟩ := h
               subst h1
               simp [enrollment_id_of, hst])
  | Disqualified i' reason branch =>
      rw [hst] at hid
      simp only [enrollment_id_of, Option.some.injEq] at hid
      subst hid
      simp only [on_experiment_updated, hst] at h
      split at h <;>
        (simp only [Except.ok.injEq, Prod.mk.injEq] at h
         obtain ⟨h1, -⟩ := h
         subst h1
         simp [enrollment_id_of, hst])
  | WasEnrolled i' branch t =>
      rw [hst] at hid
      simp only [enrollment_id_of, Option.some.injEq] at hid
      subst hid
      simp only [on_experiment_updated, hst, Except.ok.injEq, Prod.mk.injEq] at h
      obtain ⟨h1, -⟩ := h
      subst h1
      simp [enrollment_id_of, hst]

theorem on_experiment_ended_id (now : Nat) (prior r : ExperimentEnrollment) (i : Uuid)
    (h : (on_experiment_ended now prior).1 = some r)
    (hid : enrollment_id_of prior.status = some i) :
    enrollment_id_of r.status = some i := by
  unfold on_experiment_ended at h
  cases hst : prior.status with
  | Enrolled i' reason branch =>
      rw [hst] at hid
      simp only [enrollment_id_of, Option.some.injEq] at hid
      subst hid
      simp only [hst, Option.some.injEq] at h
      rw [← h]
      rfl
  | Disqualified i' reason branch =>
      rw [hst] at hid
      simp only [enrollment_id_of, Option.some.injEq] at hid
      subst hid
      simp only [hst, Option.some.injEq] at h
      rw [← h]
      rfl
  | NotEnrolled reason => simp [hst] at h
  | WasEnrolled i' branch t => simp [hst] at h
  | Error msg => simp [hst] at h

/-! ### Idempotence of the per-slug transitions -/

theorem updated_fixes_evaluated (evaluator : Evaluator) (experiment : Experiment)
    (v : ExperimentEnrollment) (hB : evaluator_branches_exist evaluator)
    (hpause : experiment.is_enrollment_paused = false)
    (hv : evaluator experiment = .ok v) :
    on_experiment_updated evaluator true v experiment = .ok (v, []) := by
  cases hst : v.status with
  | Enrolled i reason branch =>
      have hbr : experiment.has_branch branch = true := hB experiment v i reason branch hv hst
      simp [on_experiment_updated, hst, hbr, hv]
  | NotEnrolled reason =>
      simp [on_experiment_updated, hst, hpause, hv, EnrollmentStatus.is_enrolled]
  | Disqualified i reason branch =>
      simp [on_experiment_updated, hst]
  | WasEnrolled i branch t =>
      simp [on_experiment_updated, hst]
  | Error msg =>
      simp [on_experiment_updated, hst]

theorem on_experiment_updated_idem (evaluator : Evaluator) (p : Bool)
    (prior : ExperimentEnrollment) (experiment : Experiment) (r : ExperimentEnrollment)
    (evs : List EnrollmentChangeEvent) (hB : evaluator_branches_exist evaluator)
    (h : on_experiment_updated evaluator p prior experiment = .ok (r, evs)) :
    on_experiment_updated evaluator p r experiment = .ok (r, []) := by
  cases hst : prior.status with
  | NotEnrolled reason =>
      simp only [on_experiment_updated, hst] at h
      split at h
      next hc =>
        simp only [Except.ok.injEq, Prod.mk.injEq] at h
        obtain ⟨h1, -⟩ := h
        rw [← h1]
        simp [on_experiment_updated, hst, hc]
      next hc =>
        have hp : p = true := by cases p <;> simp_all
        have hpause : experiment.is_enrollment_paused = false := by
          cases hq : experiment.is_enrollment_paused <;> simp_all
        subst hp
        split at h
        next => exact absurd h (by simp)
        next v hv =>
          simp only [Except.ok.injEq, Prod.mk.injEq] at h
          obtain ⟨h1, -⟩ := h
          rw [← h1]
          exact updated_fixes_evaluated evaluator experiment v hB hpause hv
  | Enrolled i reason branch =>
      simp only [on_experiment_updated, hst] at h
      split at h
      next hc =>
        have hp : p = false := by cases p <;> simp_all
        subst hp
        simp only [Except.ok.injEq, Prod.mk.injEq] at h
        obtain ⟨h1, -⟩ := h
        rw [← h1]
        simp [on_experiment_updated]
      next hc =>
        have hp : p = true := by cases p <;> simp_all
        subst hp
        split at h
        next hbr =>
          simp only [Except.ok.injEq, Prod.mk.injEq] at h
          obtain ⟨h1, -⟩ := h
          rw [← h1]
          simp [on_experiment_updated]
        next hbr =>
          have hbr' : experiment.has_branch branch = true := by
            cases hq : experiment.has_branch branch <;> simp_all
          split at h
          next => exact absurd h (by simp)
          next v hv =>
            cases hvst : v.status with
            | Error msg =>
                simp only [hvst] at h
                simp only [Except.ok.injEq, Prod.mk.injEq] at h
                obtain ⟨h1, -⟩ := h
                rw [← h1]
                simp [on_experiment_updated]
            | NotEnrolled nreason =>
                cases nreason with
                | NotTargeted =>
                    simp only [hvst] at h
                    simp only [Except.ok.injEq, Prod.mk.injEq] at h
                    obtain ⟨h1, -⟩ := h
                    rw [← h1]
                    simp [on_experiment_updated]
                | OptOut =>
                    simp only [hvst] at h
                    simp only [Except.ok.injEq, Prod.mk.injEq] at h
                    obtain ⟨h1, -⟩ := h
                    rw [← h1]
                    simp [on_experiment_updated, hst, hbr', hv, hvst]
                | NotSelected =>
                    simp only [hvst] at h
                    simp only [Except.ok.injEq, Prod.mk.injEq] at h
                    obtain ⟨h1, -⟩ := h
                    rw [← h1]
                    simp [on_experiment_updated, hst, hbr', hv, hvst]
                | EnrollmentsPaused =>
                    simp only [hvst] at h
                    simp only [Except.ok.injEq, Prod.mk.injEq] at h
                    obtain ⟨h1, -⟩ := h
                    rw [← h1]
                    simp [on_experiment_updated, hst, hbr', hv, hvst]
            | Enrolled i' reason' branch' =>
                simp only [hvst] at h
                simp only [Except.ok.injEq, Prod.mk.injEq] at h
                obtain ⟨h1, -⟩ := h
                rw [← h1]
                simp [on_experiment_updated, hst, hbr', hv, hvst]
            | Disqualified i' reason' branch' =>
                simp only [hvst] at h
                simp only [Except.ok.injEq, Prod.mk.injEq] at h
                obtain ⟨h1, -⟩ := h
                rw [← h1]
                simp [on_experiment_updated, hst, hbr', hv, hvst]
            | WasEnrolled i' branch' t =>
                simp only [hvst] at h
                simp only [Except.ok.injEq, Prod.mk.injEq] at h
                obtain ⟨h1, -⟩ := h
                rw [← h1]
                simp [on_experiment_updated, hst, hbr', hv, hvst]
  | Disqualified i reason branch =>
      simp only [on_experiment_updated, hst] at h
      split at h
      next hc =>
        have hp : p = false := by cases p <;> simp_all
        subst hp
        simp only [Except.ok.injEq, Prod.mk.injEq] at h
        obtain ⟨h1, -⟩ := h
        rw [← h1]
        simp [on_experiment_updated]
      next hc =>
        have hp : p = true := by cases p <;> simp_all
        subst hp
        simp only [Except.ok.injEq, Prod.mk.injEq] at h
        obtain ⟨h1, -⟩ := h
        rw [← h1]
        simp [on_experiment_updated, hst]
  | WasEnrolled i branch t =>
      simp only [on_experiment_updated, hst, Except.ok.injEq, Prod.mk.injEq] at h
      obtain ⟨h1, -⟩ := h
      rw [← h1]
      simp [on_experiment_updated, hst]
  | Error msg =>
      simp only [on_experiment_updated, hst, Except.ok.injEq, Prod.mk.injEq] at h
      obtain ⟨h1, -⟩ := h
      rw [← h1]
      simp [on_experiment_updated, hst]

theorem from_new_then_updated (evaluator : Evaluator) (p : Bool) (experiment : Experiment)
    (r : ExperimentEnrollment) (evs : List EnrollmentChangeEvent)
    (hB : evaluator_branches_exist evaluator)
    (h : from_new_experiment evaluator p experiment = .ok (r, evs)) :
    on_experiment_updated evaluator p r experiment = .ok (r, []) := by
  simp only [from_new_experiment] at h
  split at h
  next hnp =>
    simp only [Except.ok.injEq, Prod.mk.injEq] at h
    obtain ⟨h1, -⟩ := h
    rw [← h1]
    simp [on_experiment_updated, hnp]
  next hnp =>
    split at h
    next hpaused =>
      simp only [Except.ok.injEq, Prod.mk.injEq] at h
      obtain ⟨h1, -⟩ := h
      rw [← h1]
      simp [on_experiment_updated, hpaused]
    next hpaused =>
      split at h
      next => exact absurd h (by simp)
      next v hv =>
        simp only [Except.ok.injEq, Prod.mk.injEq] at h
        obtain ⟨h1, -⟩ := h
        rw [← h1]
        have hp : p = true := by cases p <;> simp_all
        have hps : experiment.is_enrollment_paused = false := by
          cases hq : experiment.is_enrollment_paused <;> simp_all
        subst hp
        exact updated_fixes_evaluated evaluator experiment v hB hps hv

theorem evolve_enrollment_idem (evaluator : Evaluator) (now : Nat) (p : Bool)
    (oe ou : Option Experiment) (onn : Option ExperimentEnrollment)
    (ro : Option ExperimentEnrollment) (evs : List EnrollmentChangeEvent)
    (hB : evaluator_branches_exist evaluator)
    (h : evolve_enrollment evaluator now p oe ou onn = .ok (ro, evs)) :
    evolve_enrollment evaluator now p ou ou ro = .ok (ro, []) := by
  cases oe with
  | none =>
      cases ou with
      | none =>
          cases onn with
          | none =>
              simp only [evolve_enrollment, Except.ok.injEq, Prod.mk.injEq] at h
              obtain ⟨h1, -⟩ := h
              rw [← h1]
              rfl
          | some n =>
              simp only [evolve_enrollment, Except.ok.injEq, Prod.mk.injEq] at h
              obtain ⟨h1, -⟩ := h
              rw [← h1]
              cases hgc : maybe_garbage_collect now n with
              | none => simp [evolve_enrollment, hgc]
              | some w =>
                  have hw := maybe_garbage_collect_some now n w hgc
                  subst hw
                  simp [evolve_enrollment, hgc]
      | some u =>
          cases onn with
          | none =>
              simp only [evolve_enrollment] at h
              split at h
              next => exact absurd h (by simp)
              next enr eventsN hnew =>
                simp only [Except.ok.injEq, Prod.mk.injEq] at h
                obtain ⟨h1, -⟩ := h
                rw [← h1]
                simp [evolve_enrollment, from_new_then_updated evaluator p u enr eventsN hB hnew]
          | some n => simp [evolve_enrollment] at h
  | some e =>
      cases ou with
      | none =>
          cases onn with
          | none => simp [evolve_enrollment] at h
          | some n =>
              simp only [evolve_enrollment, Except.ok.injEq] at h
              have h1 : (on_experiment_ended now n).1 = ro := by rw [h]
              rw [← h1]
              cases hst : n.status with
              | Enrolled i reason branch =>
                  simp only [on_experiment_ended, hst]
                  simp [evolve_enrollment, maybe_garbage_collect_keeps_now]
              | Disqualified i reason branch =>
                  simp only [on_experiment_ended, hst]
                  simp [evolve_enrollment, maybe_garbage_collect_keeps_now]
              | NotEnrolled reason => simp [on_experiment_ended, hst, evolve_enrollment]
              | WasEnrolled i branch t => simp [on_experiment_ended, hst, evolve_enrollment]
              | Error msg => simp [on_experiment_ended, hst, evolve_enrollment]
      | some u =>
          cases onn with
          | none => simp [evolve_enrollment] at h
          | some n =>
              simp only [evolve_enrollment] at h
              split at h
              next => exact absurd h (by simp)
              next upd eventsU hupd =>
                simp only [Except.ok.injEq, Prod.mk.injEq] at h
                obtain ⟨h1, -⟩ := h
                rw [← h1]
                simp [evolve_enrollment,
                  on_experiment_updated_idem evaluator p n u upd eventsU hB hupd]

/-! ### Per-call lookup characterization -/

theorem evolve_enrollment_ok_slug (evaluator : Evaluator) (now : Nat) (p : Bool)
    (oe ou : Option Experiment) (onn : Option ExperimentEnrollment)
    (r : ExperimentEnrollment) (evs : List EnrollmentChangeEvent) (s : String)
    (hE : evaluator_returns_slug evaluator)
    (hou : ∀ u, ou = some u → u.slug = s)
    (honn : ∀ n, onn = some n → n.slug = s)
    (h : evolve_enrollment evaluator now p oe ou onn = .ok (some r, evs)) :
    r.slug = s := by
  cases oe with
  | none =>
      cases ou with
      | none =>
          cases onn with
          | none => simp [evolve_enrollment] at h
          | some n =>
              simp only [evolve_enrollment, Except.ok.injEq, Prod.mk.injEq] at h
              obtain ⟨h1, -⟩ := h
              have hr := maybe_garbage_collect_some now n r h1
              rw [hr]
              exact honn n rfl
      | some u =>
          cases onn with
          | none =>
              simp only [evolve_enrollment] at h
              split at h
              next => exact absurd h (by simp)
              next enr eventsN hnew =>
                simp only [Except.ok.injEq, Prod.mk.injEq, Option.some.injEq] at h
                obtain ⟨h1, -⟩ := h
                rw [← h1]
                rw [from_new_experiment_slug evaluator p u enr eventsN hE hnew]
                exact hou u rfl
          | some n => simp [evolve_enrollment] at h
  | some e =>
      cases ou with
      | none =>
          cases onn with
          | none => simp [evolve_enrollment] at h
          | some n =>
              simp only [evolve_enrollment, Except.ok.injEq] at h
              have h1 : (on_experiment_ended now n).1 = some r := by rw [h]
              rw [on_experiment_ended_slug now n r h1]
              exact honn n rfl
      | some u =>
          cases onn with
          | none => simp [evolve_enrollment] at h
          | some n =>
              simp only [evolve_enrollment] at h
              split at h
              next => exact absurd h (by simp)
              next upd eventsU hupd =>
                simp only [Except.ok.injEq, Prod.mk.injEq, Option.some.injEq] at h
                obtain ⟨h1, -⟩ := h
                rw [← h1]
                rcases on_experiment_updated_slug evaluator p n u upd eventsU hE hupd with
                  hsl | hsl
                · rw [hsl]; exact honn n rfl
                · rw [hsl]; exact hou u rfl

theorem evolve_enrollments_lookup (evaluator : Evaluator) (now : Nat) (p : Bool)
    (E U : List Experiment) (N : List ExperimentEnrollment)
    (us : List ExperimentEnrollment) (evs : List EnrollmentChangeEvent)
    (hE : evaluator_returns_slug evaluator)
    (h : evolve_enrollments evaluator now p E U N = .ok (us, evs)) (s : String) :
    ∃ resp, evolve_enrollment evaluator now p (storeGet s (map_experiments E))
        (storeGet s (map_experiments U)) (storeGet s (map_enrollments N)) = .ok resp ∧
      storeGet s (map_enrollments us) = resp.1 := by
  simp only [evolve_enrollments] at h
  obtain ⟨hall, hus, -⟩ := evolveSlugs_ok _ _ us evs h
  have hnd := nodup_dedup_slugs
    ((map_experiments E).map Prod.fst ++ (map_experiments U).map Prod.fst ++
      (map_enrollments N).map Prod.fst)
  have hkey : ∀ s' ∈ dedup_slugs
      ((map_experiments E).map Prod.fst ++ (map_experiments U).map Prod.fst ++
        (map_enrollments N).map Prod.fst),
      ∀ r, updatedOf (evolve_enrollment evaluator now p (storeGet s' (map_experiments E))
        (storeGet s' (map_experiments U)) (storeGet s' (map_enrollments N))) = some r →
      r.slug = s' := by
    intro s' hs' r hr
    obtain ⟨⟨u?, ev⟩, hfs⟩ := hall s' hs'
    rw [hfs] at hr
    simp only [updatedOf] at hr
    subst hr
    refine evolve_enrollment_ok_slug evaluator now p _ _ _ r ev s' hE ?_ ?_ hfs
    · intro u hu
      exact storeGet_storeOfValues_slug Experiment.slug U s' u hu
    · intro n hn
      exact storeGet_storeOfValues_slug ExperimentEnrollment.slug N s' n hn
  have hlook : ∀ s' : String, storeGet s' (map_enrollments us) =
      if s' ∈ dedup_slugs
        ((map_experiments E).map Prod.fst ++ (map_experiments U).map Prod.fst ++
          (map_enrollments N).map Prod.fst)
      then updatedOf (evolve_enrollment evaluator now p (storeGet s' (map_experiments E))
        (storeGet s' (map_experiments U)) (storeGet s' (map_enrollments N)))
      else none := by
    intro s'
    rw [hus]
    exact storeGet_storeOfValues_out ExperimentEnrollment.slug _ _ hnd hkey s'
  by_cases hs : s ∈ dedup_slugs
    ((map_experiments E).map Prod.fst ++ (map_experiments U).map Prod.fst ++
      (map_enrollments N).map Prod.fst)
  · obtain ⟨resp, hfs⟩ := hall s hs
    refine ⟨resp, hfs, ?_⟩
    rw [hlook s, if_pos hs, hfs]
    rfl
  · have hnm : ∀ keys : List String,
        keys = (map_experiments E).map Prod.fst ∨
        keys = (map_experiments U).map Prod.fst ∨
        keys = (map_enrollments N).map Prod.fst → s ∉ keys := by
      intro keys hk hc
      refine hs ((mem_dedup_slugs _ s).mpr ?_)
      rcases hk with rfl | rfl | rfl
      · exact List.mem_append_left _ (List.mem_append_left _ hc)
      · exact List.mem_append_left _ (List.mem_append_right _ hc)
      · exact List.mem_append_right _ hc
    have h1 : storeGet s (map_experiments E) = none :=
      storeGet_eq_none_of_not_mem _ s (hnm _ (Or.inl rfl))
    have h2 : storeGet s (map_experiments U) = none :=
      storeGet_eq_none_of_not_mem _ s (hnm _ (Or.inr (Or.inl rfl)))
    have h3 : storeGet s (map_enrollments N) = none :=
      storeGet_eq_none_of_not_mem _ s (hnm _ (Or.inr (Or.inr rfl)))
    refine ⟨(none, []), ?_, ?_⟩
    · rw [h1, h2, h3]
      rfl
    · rw [hlook s, if_neg hs]

/-! ### More store and list utilities -/

theorem storeGet_isSome_of_mem_keys {α : Type} (m : List (String × α)) (s : String) :
    s ∈ m.map Prod.fst → (storeGet s m).isSome := by
  induction m with
  | nil => intro h; simp at h
  | cons p rest ih =>
      obtain ⟨k, v⟩ := p
      intro h
      simp only [storeGet]
      split
      · rfl
      next hne =>
        rcases List.mem_cons.mp h with h' | h'
        · exact absurd h'.symm hne
        · exact ih h'

theorem keys_storePut_mono {α : Type} (m : List (String × α)) (k s : String) (v : α) :
    (s ∈ m.map Prod.fst ∨ s = k) → s ∈ (storePut m k v).map Prod.fst := by
  induction m with
  | nil =>
      rintro (h | rfl)
      · simp at h
      · simp [storePut]
  | cons p rest ih =>
      obtain ⟨k', v'⟩ := p
      intro h
      simp only [storePut]
      split
      next heq =>
        subst heq
        rcases h with h' | rfl
        · rcases List.mem_cons.mp h' with h'' | h''
          · simp [h'']
          · simp [h'']
        · simp
      next hne =>
        rcases h with h' | rfl
        · rcases List.mem_cons.mp h' with h'' | h''
          · simp [h'']
          · simpa using Or.inr (ih (Or.inl h''))
        · simpa using Or.inr (ih (Or.inr rfl))

theorem mem_keys_storeOfValues {α : Type} (key : α → String) (l : List α) (s : String) :
    (∃ v ∈ l, key v = s) → s ∈ (storeOfValues key l).map Prod.fst := by
  suffices hgen : ∀ acc : List (String × α),
      (s ∈ acc.map Prod.fst ∨ ∃ v ∈ l, key v = s) →
      s ∈ ((l.foldl (fun m v => storePut m (key v) v) acc).map Prod.fst) by
    intro h
    exact hgen [] (Or.inr h)
  induction l with
  | nil =>
      rintro acc (h | ⟨v, hv, -⟩)
      · simpa using h
      · simp at hv
  | cons x t ih =>
      rintro acc (h | ⟨v, hv, hkv⟩)
      · exact ih _ (Or.inl (keys_storePut_mono acc (key x) s x (Or.inl h)))
      · rcases List.mem_cons.mp hv with rfl | hv'
        · exact ih _ (Or.inl (keys_storePut_mono acc (key v) s v (Or.inr hkv.symm)))
        · exact ih _ (Or.inr ⟨v, hv', hkv⟩)

theorem filterMap_congr_fun {α β : Type} (f g : α → Option β) :
    ∀ l : List α, (∀ a ∈ l, f a = g a) → l.filterMap f = l.filterMap g := by
  intro l
  induction l with
  | nil => intro _; rfl
  | cons x t ih =>
      intro h
      rw [List.filterMap_cons, List.filterMap_cons, h x (List.mem_cons_self x t),
        ih (fun a ha => h a (List.mem_cons_of_mem x ha))]

theorem flatten_eq_nil_of_all {α : Type} :
    ∀ l : List (List α), (∀ x ∈ l, x = []) → l.flatten = [] := by
  intro l
  induction l with
  | nil => intro _; rfl
  | cons x t ih =>
      intro h
      rw [List.flatten_cons, h x (List.mem_cons_self x t),
        ih (fun a ha => h a (List.mem_cons_of_mem x ha))]
      rfl

/-! ### Destructing and constructing a successful database evolution -/

theorem evolve_in_db_ok_destruct (evaluator : Evaluator) (now : Nat) (db : Database)
    (X : List Experiment) (db' : Database) (evs : List EnrollmentChangeEvent)
    (h : evolve_enrollments_in_db evaluator now db X = .ok (db', evs)) :
    ∃ us, evolve_enrollments evaluator now (get_global_user_participation db)
        (db.experiments.map Prod.snd) X (db.enrollments.map Prod.snd) = .ok (us, evs) ∧
      (∀ x ∈ X, (storeGet x.slug (map_enrollments us)).isSome) ∧
      db' = { db with experiments := map_experiments X, enrollments := map_enrollments us } := by
  simp only [evolve_enrollments_in_db] at h
  split at h
  next => exact absurd h (by simp)
  next us events hev =>
    split at h
    next => exact absurd h (by simp)
    next store hw =>
      simp only [Except.ok.injEq, Prod.mk.injEq] at h
      obtain ⟨hdb, hevs⟩ := h
      obtain ⟨hchecks, hstore⟩ := write_experiments_ok (map_enrollments us) X [] store hw
      subst hevs
      refine ⟨us, hev, hchecks, ?_⟩
      rw [← hdb, hstore]
      rfl

theorem evolve_in_db_ok_construct (evaluator : Evaluator) (now : Nat) (db : Database)
    (X : List Experiment) (us : List ExperimentEnrollment)
    (evs : List EnrollmentChangeEvent)
    (hev : evolve_enrollments evaluator now (get_global_user_participation db)
      (db.experiments.map Prod.snd) X (db.enrollments.map Prod.snd) = .ok (us, evs))
    (hchecks : ∀ x ∈ X, (storeGet x.slug (map_enrollments us)).isSome) :
    evolve_enrollments_in_db evaluator now db X =
      .ok ({ db with experiments := map_experiments X, enrollments := map_enrollments us },
        evs) := by
  simp only [evolve_enrollments_in_db, hev,
    write_experiments_ok_of (map_enrollments us) X [] hchecks]
  rfl

/-! ### Success of a single evolution step when an update is present -/

theorem evolve_enrollment_some_of_updated (evaluator : Evaluator) (now : Nat) (p : Bool)
    (oe : Option Experiment) (u : Experiment) (onn : Option ExperimentEnrollment)
    (resp : Option ExperimentEnrollment × List EnrollmentChangeEvent)
    (h : evolve_enrollment evaluator now p oe (some u) onn = .ok resp) : resp.1.isSome := by
  obtain ⟨ro, evs⟩ := resp
  cases oe with
  | none =>
      cases onn with
      | none =>
          simp only [evolve_enrollment] at h
          split at h
          next => exact absurd h (by simp)
          next enr eventsN hnew =>
            simp only [Except.ok.injEq, Prod.mk.injEq] at h
            obtain ⟨h1, -⟩ := h
            rw [← h1]
            rfl
      | some n => simp [evolve_enrollment] at h
  | some e =>
      cases onn with
      | none => simp [evolve_enrollment] at h
      | some n =>
          simp only [evolve_enrollment] at h
          split at h
          next => exact absurd h (by simp)
          next upd eventsU hupd =>
            simp only [Except.ok.injEq, Prod.mk.injEq] at h
            obtain ⟨h1, -⟩ := h
            rw [← h1]
            rfl

/-! ### Preservation of the enrollment id by a single evolution step -/

theorem evolve_enrollment_id (evaluator : Evaluator) (now : Nat) (p : Bool)
    (oe ou : Option Experiment) (prior : ExperimentEnrollment)
    (ro : Option ExperimentEnrollment) (evs : List EnrollmentChangeEvent)
    (rec' : ExperimentEnrollment) (i : Uuid)
    (h : evolve_enrollment evaluator now p oe ou (some prior) = .ok (ro, evs))
    (hid : enrollment_id_of prior.status = some i) (hro : ro = some rec') :
    enrollment_id_of rec'.status = some i := by
  subst hro
  cases oe with
  | none =>
      cases ou with
      | none =>
          simp only [evolve_enrollment, Except.ok.injEq, Prod.mk.injEq] at h
          obtain ⟨h1, -⟩ := h
          have hr := maybe_garbage_collect_some now prior rec' h1
          rw [hr]
          exact hid
      | some u => simp [evolve_enrollment] at h
  | some e =>
      cases ou with
      | none =>
          simp only [evolve_enrollment, Except.ok.injEq] at h
          have h1 : (on_experiment_ended now prior).1 = some rec' := by rw [h]
          exact on_experiment_ended_id now prior rec' i h1 hid
      | some u =>
          simp only [evolve_enrollment] at h
          split at h
          next => exact absurd h (by simp)
          next upd eventsU hupd =>
            simp only [Except.ok.injEq, Prod.mk.injEq, Option.some.injEq] at h
            obtain ⟨h1, -⟩ := h
            rw [← h1]
            exact on_experiment_updated_id evaluator p prior u upd eventsU i hupd hid

theorem on_explicit_opt_out_id (prior : ExperimentEnrollment) (i : Uuid)
    (hid : enrollment_id_of prior.status = some i) :
    enrollment_id_of (on_explicit_opt_out prior).1.status = some i := by
  cases hst : prior.status with
  | Enrolled i' reason branch =>
      rw [hst] at hid
      simp only [enrollment_id_of, Option.some.injEq] at hid
      subst hid
      simp [on_explicit_opt_out, hst, enrollment_id_of]
  | NotEnrolled reason => rw [hst] at hid; exact absurd hid (by simp [enrollment_id_of])
  | Error msg => rw [hst] at hid; exact absurd hid (by simp [enrollment_id_of])
  | Disqualified i' reason branch =>
      simp only [on_explicit_opt_out, hst]
      rw [hst] at hid
      exact hst ▸ hid
  | WasEnrolled i' branch t =>
      simp only [on_explicit_opt_out, hst]
      rw [hst] at hid
      exact hst ▸ hid

/-! ### Claim theorems -/

/-- C2: sticky bucketing — for a prior `Enrolled` record, when the user is
participating, the enrolled branch is still among the experiment's branches,
and the evaluator verdict is neither `Error` nor `NotEnrolled(NotTargeted)`
(in particular `NotEnrolled(NotSelected)` or any `Enrolled` verdict),
`on_experiment_updated` returns the prior record unchanged and appends no
event. -/
theorem sticky_bucketing (evaluator : Evaluator) (prior : ExperimentEnrollment)
    (experiment : Experiment) (i : Uuid) (reason : EnrolledReason) (branch : String)
    (v : ExperimentEnrollment)
    (hst : prior.status = .Enrolled i reason branch)
    (hbr : experiment.has_branch branch = true)
    (hv : evaluator experiment = .ok v)
    (hverr : ∀ msg, v.status ≠ .Error msg)
    (hvnt : v.status ≠ .NotEnrolled .NotTargeted) :
    on_experiment_updated evaluator true prior experiment = .ok (prior, []) := by
  simp only [on_experiment_updated, hst]
  rw [if_neg (by simp)]
  rw [if_neg (by simp [hbr])]
  rw [hv]
  cases hvst : v.status with
  | Error msg => exact absurd hvst (hverr msg)
  | NotEnrolled nreason =>
      cases nreason with
      | NotTargeted => exact absurd hvst hvnt
      | OptOut => simp [hvst]
      | NotSelected => simp [hvst]
      | EnrollmentsPaused => simp [hvst]
  | Enrolled i' reason' branch' => simp [hvst]
  | Disqualified i' reason' branch' => simp [hvst]
  | WasEnrolled i' branch' t => simp [hvst]

/-- Witness for C2 at a concrete input: an `Enrolled` record stays unchanged
under a `NotEnrolled(NotSelected)` verdict. -/
theorem sticky_bucketing_witness :
    on_experiment_updated trivial_evaluator true
      ⟨"exp-a", .Enrolled 7 .Qualified ("control")⟩ expA =
      .ok (⟨"exp-a", .Enrolled 7 .Qualified ("control")⟩, []) :=
  sticky_bucketing trivial_evaluator ⟨"exp-a", .Enrolled 7 .Qualified ("control")⟩ expA
    7 .Qualified ("control") ⟨"exp-a", .NotEnrolled .NotSelected⟩ rfl rfl rfl
    (fun _ h => nomatch h) (fun h => nomatch h)

/-- C5: experiment-ended transition — a prior record in `Enrolled` or
`Disqualified` becomes `WasEnrolled` with the same enrollment id and branch
and `experiment_ended_at = now`, emitting exactly one `Unenrollment` event;
a prior record in `NotEnrolled`, `WasEnrolled` or `Error` is deleted with no
event. -/
theorem experiment_ended_transition (now : Nat) (prior : ExperimentEnrollment) :
    (∀ i reason branch, prior.status = .Enrolled i reason branch →
      on_experiment_ended now prior =
        (some ⟨prior.slug, .WasEnrolled i branch now⟩,
          [⟨prior.slug, branch, toString i, none, .Unenrollment⟩])) ∧
    (∀ i reason branch, prior.status = .Disqualified i reason branch →
      on_experiment_ended now prior =
        (some ⟨prior.slug, .WasEnrolled i branch now⟩,
          [⟨prior.slug, branch, toString i, none, .Unenrollment⟩])) ∧
    (∀ reason, prior.status = .NotEnrolled reason →
      on_experiment_ended now prior = (none, [])) ∧
    (∀ i branch t, prior.status = .WasEnrolled i branch t →
      on_experiment_ended now prior = (none, [])) ∧
    (∀ msg, prior.status = .Error msg → on_experiment_ended now prior = (none, [])) := by
  refine ⟨?_, ?_, ?_, ?_, ?_⟩
  · intro i reason branch hst
    simp [on_experiment_ended, hst, get_change_event, EnrollmentChangeEvent.new]
  · intro i reason branch hst
    simp [on_experiment_ended, hst, get_change_event, EnrollmentChangeEvent.new]
  · intro reason hst
    simp [on_experiment_ended, hst]
  · intro i branch t hst
    simp [on_experiment_ended, hst]
  · intro msg hst
    simp [on_experiment_ended, hst]

/-- Witness for C5 at a concrete input: an `Enrolled` record becomes
`WasEnrolled` with one `Unenrollment` event. -/
theorem experiment_ended_transition_witness :
    on_experiment_ended 1000 ⟨"exp-a", .Enrolled 7 .Qualified ("control")⟩ =
      (some ⟨"exp-a", .WasEnrolled 7 ("control") 1000⟩,
        [⟨"exp-a", "control", "7", none, .Unenrollment⟩]) :=
  (experiment_ended_transition 1000 ⟨"exp-a", .Enrolled 7 .Qualified ("control")⟩).1
    7 .Qualified ("control") rfl

/-- C6: GC threshold — a `WasEnrolled` record with
`experiment_ended_at = now - T` (for `T ≤ now`, with `now` a `u64` value) is
kept unchanged by `maybe_garbage_collect` iff `T < 30` days (2,592,000
seconds), is deleted when `T ≥ 30` days, and any record whose status is not
`WasEnrolled` is deleted. -/
theorem gc_threshold (now T : Nat) (slug branch : String) (i : Uuid)
    (hnow : now < 2 ^ 64) (hT : T ≤ now) :
    ((maybe_garbage_collect now ⟨slug, .WasEnrolled i branch (now - T)⟩ =
        some ⟨slug, .WasEnrolled i branch (now - T)⟩) ↔ T < PREVIOUS_ENROLLMENTS_GC_TIME) ∧
    (PREVIOUS_ENROLLMENTS_GC_TIME ≤ T →
      maybe_garbage_collect now ⟨slug, .WasEnrolled i branch (now - T)⟩ = none) ∧
    (∀ e : ExperimentEnrollment, (∀ i' b' t', e.status ≠ .WasEnrolled i' b' t') →
      maybe_garbage_collect now e = none) := by
  have hsub : u64_wrap_sub now (now - T) = T := by
    rw [u64_wrap_sub_of_le now (now - T) (by omega) hnow]
    omega
  refine ⟨?_, ?_, ?_⟩
  · simp only [maybe_garbage_collect, hsub]
    by_cases hlt : T < PREVIOUS_ENROLLMENTS_GC_TIME
    · simp [hlt]
    · simp [hlt]
  · intro hge
    simp only [maybe_garbage_collect, hsub]
    rw [if_neg (Nat.not_lt.mpr hge)]
  · intro e he
    cases hst : e.status with
    | WasEnrolled i' b' t' => exact absurd hst (he i' b' t')
    | Enrolled i' r' b' => simp [maybe_garbage_collect, hst]
    | NotEnrolled r' => simp [maybe_garbage_collect, hst]
    | Disqualified i' r' b' => simp [maybe_garbage_collect, hst]
    | Error msg => simp [maybe_garbage_collect, hst]

/-- Witness for C6 at a concrete input: a record that ended exactly 30 days
ago is deleted. -/
theorem gc_threshold_witness :
    maybe_garbage_collect 2592001 ⟨"exp-a", .WasEnrolled 7 ("control") (2592001 - 2592000)⟩ =
      none :=
  (gc_threshold 2592001 2592000 ("exp-a") ("control") 7 (by norm_num) (by norm_num)).2.1
    (by norm_num [PREVIOUS_ENROLLMENTS_GC_TIME])

/-- C7: terminal `Error` — from a record whose status is `Error`, no
sequence of update-driven transitions (`on_experiment_updated`,
`on_explicit_opt_out`, `on_experiment_ended`, `maybe_garbage_collect`) ever
produces a record with any other status: every reachable outcome is the
record unchanged, or deletion. -/
theorem terminal_error (e₀ : ExperimentEnrollment) (msg : String)
    (hst : e₀.status = .Error msg) (o : Option ExperimentEnrollment)
    (hr : UpdateReach e₀ o) : o = some e₀ ∨ o = none := by
  induction hr with
  | refl => exact Or.inl rfl
  | step e o hre hs ih =>
      rcases ih with he | he
      · have he' : e = e₀ := by injection he
        subst he'
        cases hs with
        | updated evaluator p experiment r events h =>
            simp only [on_experiment_updated, hst] at h
            simp only [Except.ok.injEq, Prod.mk.injEq] at h
            obtain ⟨h1, -⟩ := h
            exact Or.inl (by rw [← h1])
        | optedOut r events h =>
            simp only [on_explicit_opt_out, hst, Prod.mk.injEq] at h
            obtain ⟨h1, -⟩ := h
            exact Or.inl (by rw [← h1])
        | ended now =>
            refine Or.inr ?_
            simp [on_experiment_ended, hst]
        | collected now =>
            refine Or.inr ?_
            simp [maybe_garbage_collect, hst]
      · exact absurd he (by simp)

/-- Witness for C7 at a concrete input: one garbage-collection step from an
`Error` record yields unchanged-or-deleted. -/
theorem terminal_error_witness :
    maybe_garbage_collect 5 ⟨"exp-err", .Error ("boom")⟩ =
        some ⟨"exp-err", .Error ("boom")⟩ ∨
      maybe_garbage_collect 5 ⟨"exp-err", .Error ("boom")⟩ = none :=
  terminal_error ⟨"exp-err", .Error ("boom")⟩ ("boom") rfl _
    (UpdateReach.step _ _ UpdateReach.refl (UpdateStep.collected 5))

/-- C8: opt-in to an unknown branch is atomic — when the experiment stored
under `slug` does not have the requested branch, `opt_in_with_branch`
returns the `NoSuchBranch` error; the transaction aborts, so no event is
appended and no stored state changes (no `ok` result exists). -/
theorem opt_in_unknown_branch_atomic (fresh_id : Uuid) (db : Database)
    (slug branch_slug : String) (exp : Experiment)
    (hget : storeGet slug db.experiments = some exp)
    (hbr : exp.has_branch branch_slug = false) :
    opt_in_with_branch fresh_id db slug branch_slug =
        .error (.NoSuchBranch branch_slug exp.slug) ∧
      ∀ db' evs, opt_in_with_branch fresh_id db slug branch_slug ≠ .ok (db', evs) := by
  have herr : opt_in_with_branch fresh_id db slug branch_slug =
      .error (.NoSuchBranch branch_slug exp.slug) := by
    simp [opt_in_with_branch, hget, from_explicit_opt_in, hbr]
  exact ⟨herr, fun db' evs hc => by rw [herr] at hc; exact absurd hc (by simp)⟩

/-- Witness for C8 at a concrete input: opting in to a nonexistent branch of
a stored experiment fails with `NoSuchBranch`. -/
theorem opt_in_unknown_branch_atomic_witness :
    opt_in_with_branch 1 ⟨[("exp-a", expA)], [], []⟩ ("exp-a") ("nonexistent") =
      .error (.NoSuchBranch ("nonexistent") ("exp-a")) :=
  (opt_in_unknown_branch_atomic 1 ⟨[("exp-a", expA)], [], []⟩ ("exp-a") ("nonexistent")
    expA rfl rfl).1

/-- C10: `maybe_garbage_collect` computes `now_secs() - experiment_ended_at`
as unchecked `u64` subtraction, so it behaves cleanly only under the
precondition `experiment_ended_at ≤ now_secs()`; a stored `WasEnrolled`
record whose `experiment_ended_at` lies in the future (clock rollback) makes
the subtraction underflow: the wrapped value is `2^64 - (t - now)`, which
reads as at least 30 days, so the record is spuriously deleted instead of
being handled cleanly (a debug build panics on the same input). -/
theorem gc_requires_past_ended_at :
    (∀ a b : Nat, b ≤ a → a < 2 ^ 64 → u64_wrap_sub a b = a - b) ∧
    (∀ (now t : Nat) (slug branch : String) (i : Uuid),
      now < t → t < 2 ^ 64 → t - now ≤ 2 ^ 64 - PREVIOUS_ENROLLMENTS_GC_TIME →
      u64_wrap_sub now t = 2 ^ 64 - (t - now) ∧
      PREVIOUS_ENROLLMENTS_GC_TIME ≤ u64_wrap_sub now t ∧
      maybe_garbage_collect now ⟨slug, .WasEnrolled i branch t⟩ = none) := by
  refine ⟨u64_wrap_sub_of_le, ?_⟩
  intro now t slug branch i hlt ht hgap
  have hgc : PREVIOUS_ENROLLMENTS_GC_TIME = 2592000 := by
    norm_num [PREVIOUS_ENROLLMENTS_GC_TIME]
  have h64 : (2 : Nat) ^ 64 = 18446744073709551616 := by norm_num
  have hsub : u64_wrap_sub now t = 2 ^ 64 - (t - now) :=
    u64_wrap_sub_of_lt now t hlt (le_of_lt ht)
  have hge : PREVIOUS_ENROLLMENTS_GC_TIME ≤ u64_wrap_sub now t := by
    rw [hsub, hgc]
    rw [hgc, h64] at hgap
    rw [h64]
    omega
  refine ⟨hsub, hge, ?_⟩
  simp only [maybe_garbage_collect]
  rw [if_neg (Nat.not_lt.mpr hge)]

/-- Witness for C10 at a concrete input: a record whose `experiment_ended_at`
is 100 seconds in the future is deleted by GC via the wrapped subtraction. -/
theorem gc_requires_past_ended_at_witness :
    maybe_garbage_collect 100 ⟨"exp-a", .WasEnrolled 7 ("control") 200⟩ = none :=
  (gc_requires_past_ended_at.2 100 200 ("exp-a") ("control") 7 (by norm_num) (by norm_num)
    (by norm_num [PREVIOUS_ENROLLMENTS_GC_TIME])).2.2

theorem trivial_evaluator_returns_slug : evaluator_returns_slug trivial_evaluator := by
  intro experiment enrollment h
  injection h with h'
  rw [← h']

theorem trivial_evaluator_branches_exist : evaluator_branches_exist trivial_evaluator := by
  intro experiment enrollment i reason branch h hst
  injection h with h'
  rw [← h'] at hst
  exact absurd hst (by simp)

/-- C1: after every successful `evolve_enrollments_in_db`, the slugs of the
Experiments sub-store are a subset of the slugs of the Enrollments sub-store;
and when some updated experiment slug lacks a corresponding updated
enrollment, the call fails with `InternalError` (the transaction aborts, so
nothing durable is written). -/
theorem experiments_subset_enrollments :
    (∀ (evaluator : Evaluator) (now : Nat) (db : Database) (X : List Experiment)
        (db' : Database) (evs : List EnrollmentChangeEvent),
      evolve_enrollments_in_db evaluator now db X = .ok (db', evs) →
      ∀ s, (storeGet s db'.experiments).isSome → (storeGet s db'.enrollments).isSome) ∧
    (∀ (evaluator : Evaluator) (now : Nat) (db : Database) (X : List Experiment)
        (us : List ExperimentEnrollment) (evs : List EnrollmentChangeEvent),
      evolve_enrollments evaluator now (get_global_user_participation db)
        (db.experiments.map Prod.snd) X (db.enrollments.map Prod.snd) = .ok (us, evs) →
      (∃ x ∈ X, storeGet x.slug (map_enrollments us) = none) →
      evolve_enrollments_in_db evaluator now db X =
        .error (.InternalError ("An experiment must always have an associated enrollment."))) := by
  constructor
  · intro evaluator now db X db' evs h s hsome
    obtain ⟨us, hev, hchecks, hdb⟩ := evolve_in_db_ok_destruct evaluator now db X db' evs h
    subst hdb
    rcases isSome_storeGet_foldl Experiment.slug X [] s hsome with h' | ⟨x, hx, hxs⟩
    · simp [storeGet] at h'
    · have hx' := hchecks x hx
      rw [hxs] at hx'
      exact hx'
  · intro evaluator now db X us evs hev hmiss
    simp only [evolve_enrollments_in_db, hev,
      write_experiments_fails (map_enrollments us) X [] hmiss]

/-- Witness for C1 at a concrete input: an evaluator that returns a record
for the wrong slug makes the sanity check fail with `InternalError`. -/
theorem experiments_subset_enrollments_witness :
    evolve_enrollments_in_db bad_slug_evaluator 0 ⟨[], [], []⟩ [expA] =
      .error (.InternalError ("An experiment must always have an associated enrollment.")) :=
  experiments_subset_enrollments.2 bad_slug_evaluator 0 ⟨[], [], []⟩ [expA]
    [⟨"other", .NotEnrolled .NotSelected⟩] [] rfl ⟨expA, by simp, rfl⟩

/-- C9: whenever `evolve_enrollments` returns `Ok` (for a slug-correct
evaluator), every slug of the updated experiments has a record in the
returned updated enrollments, so the `InternalError` branch inside
`evolve_enrollments_in_db`'s write loop is unreachable: the database call
succeeds with the same events. -/
theorem evolve_ok_implies_experiment_has_enrollment (evaluator : Evaluator) (now : Nat)
    (db : Database) (X : List Experiment) (us : List ExperimentEnrollment)
    (evs : List EnrollmentChangeEvent)
    (hE : evaluator_returns_slug evaluator)
    (hev : evolve_enrollments evaluator now (get_global_user_participation db)
      (db.experiments.map Prod.snd) X (db.enrollments.map Prod.snd) = .ok (us, evs)) :
    (∀ x ∈ X, (storeGet x.slug (map_enrollments us)).isSome) ∧
    ∃ db', evolve_enrollments_in_db evaluator now db X = .ok (db', evs) := by
  have hchecks : ∀ x ∈ X, (storeGet x.slug (map_enrollments us)).isSome := by
    intro x hx
    obtain ⟨resp, hf, hlook⟩ := evolve_enrollments_lookup evaluator now
      (get_global_user_participation db) (db.experiments.map Prod.snd) X
      (db.enrollments.map Prod.snd) us evs hE hev x.slug
    rw [hlook]
    have hmem : x.slug ∈ (map_experiments X).map Prod.fst :=
      mem_keys_storeOfValues Experiment.slug X x.slug ⟨x, hx, rfl⟩
    have hsomeu := storeGet_isSome_of_mem_keys (map_experiments X) x.slug hmem
    cases hu : storeGet x.slug (map_experiments X) with
    | none => rw [hu] at hsomeu; simp at hsomeu
    | some u =>
        rw [hu] at hf
        exact evolve_enrollment_some_of_updated evaluator now _ _ u _ resp hf
  exact ⟨hchecks, ⟨_, evolve_in_db_ok_construct evaluator now db X us evs hev hchecks⟩⟩

/-- Witness for C9 at a concrete input: a successful evolution of one new
experiment, whose database write then succeeds. -/
theorem evolve_ok_implies_experiment_has_enrollment_witness :
    (∀ x ∈ [expA],
      (storeGet x.slug (map_enrollments [⟨"exp-a", .NotEnrolled .NotSelected⟩])).isSome) ∧
    ∃ db', evolve_enrollments_in_db trivial_evaluator 0 ⟨[], [], []⟩ [expA] = .ok (db', []) :=
  evolve_ok_implies_experiment_has_enrollment trivial_evaluator 0 ⟨[], [], []⟩ [expA]
    [⟨"exp-a", .NotEnrolled .NotSelected⟩] [] trivial_evaluator_returns_slug rfl

/-- C3 counterexample: `opt_in_with_branch` is a public operation that
replaces the stored record's `enrollment_id` with a freshly drawn one while
a record for the slug exists throughout — before the call the stored record
for `exp-a` carries id `0`, after the call it carries the fresh id `1`. -/
theorem opt_in_changes_enrollment_id :
    storeGet ("exp-a")
        (⟨[("exp-a", expA)],
          [("exp-a", ⟨"exp-a", .Enrolled 0 .Qualified ("control")⟩)], []⟩ : Database).enrollments =
      some ⟨"exp-a", .Enrolled 0 .Qualified ("control")⟩ ∧
    opt_in_with_branch 1
        ⟨[("exp-a", expA)], [("exp-a", ⟨"exp-a", .Enrolled 0 .Qualified ("control")⟩)], []⟩
        ("exp-a") ("control") =
      .ok (⟨[("exp-a", expA)], [("exp-a", ⟨"exp-a", .Enrolled 1 .OptIn ("control")⟩)], []⟩,
        [⟨"exp-a", "control", "1", none, .Enrollment⟩]) ∧
    (0 : Uuid) ≠ 1 :=
  ⟨rfl, rfl, by decide⟩

/-- C3 (amended): for every slug, once an `enrollment_id` has been assigned,
it never changes across `evolve_enrollments_in_db` (for a slug-correct
evaluator and a well-formed enrollments store) and across `opt_out`, while a
record for the slug exists — in particular across consecutive
`Enrolled → Disqualified → WasEnrolled` states of one record.  Explicit
opt-in (`opt_in_with_branch`) is excluded: it deliberately replaces the
record with a fresh enrollment id. -/
theorem enrollment_id_monotonic_amended :
    (∀ (evaluator : Evaluator) (now : Nat) (db : Database) (X : List Experiment)
        (db' : Database) (evs : List EnrollmentChangeEvent) (s : String)
        (prior rec' : ExperimentEnrollment) (i : Uuid),
      evaluator_returns_slug evaluator →
      store_wf ExperimentEnrollment.slug db.enrollments →
      evolve_enrollments_in_db evaluator now db X = .ok (db', evs) →
      storeGet s db.enrollments = some prior →
      enrollment_id_of prior.status = some i →
      storeGet s db'.enrollments = some rec' →
      enrollment_id_of rec'.status = some i) ∧
    (∀ (db : Database) (s : String) (db' : Database) (evs : List EnrollmentChangeEvent)
        (prior rec' : ExperimentEnrollment) (i : Uuid),
      opt_out db s = .ok (db', evs) →
      storeGet s db.enrollments = some prior →
      enrollment_id_of prior.status = some i →
      storeGet s db'.enrollments = some rec' →
      enrollment_id_of rec'.status = some i) := by
  constructor
  · intro evaluator now db X db' evs s prior rec' i hE hwf h hprior hid hrec
    obtain ⟨us, hev, hchecks, hdb⟩ := evolve_in_db_ok_destruct evaluator now db X db' evs h
    subst hdb
    obtain ⟨resp, hf, hlook⟩ := evolve_enrollments_lookup evaluator now
      (get_global_user_participation db) (db.experiments.map Prod.snd) X
      (db.enrollments.map Prod.snd) us evs hE hev s
    have hrt : map_enrollments (db.enrollments.map Prod.snd) = db.enrollments :=
      storeOfValues_roundtrip ExperimentEnrollment.slug db.enrollments hwf.1 hwf.2
    rw [hrt, hprior] at hf
    have hrec' : storeGet s (map_enrollments us) = some rec' := hrec
    rw [hlook] at hrec'
    obtain ⟨ro, ev⟩ := resp
    exact evolve_enrollment_id evaluator now _ _ _ prior ro ev rec' i hf hid hrec'
  · intro db s db' evs prior rec' i h hprior hid hrec
    rcases hoo : on_explicit_opt_out prior with ⟨upd, events⟩
    simp only [opt_out, hprior, hoo] at h
    simp only [Except.ok.injEq, Prod.mk.injEq] at h
    obtain ⟨hdb, -⟩ := h
    have henr : db'.enrollments = storePut db.enrollments s upd := by rw [← hdb]
    rw [henr, storeGet_storePut, if_pos rfl] at hrec
    have hupd := on_explicit_opt_out_id prior i hid
    rw [hoo] at hupd
    simp only [Option.some.injEq] at hrec
    rw [← hrec]
    exact hupd

/-- Witness for the amended C3 at a concrete input: `opt_out` preserves the
enrollment id of an `Enrolled` record through its `Disqualified` successor. -/
theorem enrollment_id_monotonic_amended_witness :
    enrollment_id_of
        (⟨"exp-a", .Disqualified 9 .OptOut ("control")⟩ : ExperimentEnrollment).status =
      some 9 :=
  enrollment_id_monotonic_amended.2
    ⟨[], [("exp-a", ⟨"exp-a", .Enrolled 9 .Qualified ("control")⟩)], []⟩ ("exp-a")
    ⟨[], [("exp-a", ⟨"exp-a", .Disqualified 9 .OptOut ("control")⟩)], []⟩
    [⟨"exp-a", "control", "9", some ("optout"), .Disqualification⟩]
    ⟨"exp-a", .Enrolled 9 .Qualified ("control")⟩
    ⟨"exp-a", .Disqualified 9 .OptOut ("control")⟩ 9 rfl rfl rfl rfl

/-- C4: idempotence of evolution — under the deterministic evaluator
contract (slug-correct, `Enrolled` verdicts name existing branches), if a
call to `evolve_enrollments_in_db X` succeeds, then calling it again with
`X`, the clock and the participation flag unchanged succeeds as well, leaves
the stored Experiments and Enrollments contents identical (as key-value
maps) and returns an empty event list. -/
theorem evolve_in_db_idempotent (evaluator : Evaluator) (now : Nat) (db : Database)
    (X : List Experiment) (db₁ : Database) (evs₁ : List EnrollmentChangeEvent)
    (hE : evaluator_returns_slug evaluator) (hB : evaluator_branches_exist evaluator)
    (h1 : evolve_enrollments_in_db evaluator now db X = .ok (db₁, evs₁)) :
    ∃ db₂, evolve_enrollments_in_db evaluator now db₁ X = .ok (db₂, []) ∧
      db₂.experiments = db₁.experiments ∧
      (∀ s, storeGet s db₂.enrollments = storeGet s db₁.enrollments) ∧
      db₂.meta = db₁.meta := by
  obtain ⟨us, hev, hchecks, hdb⟩ := evolve_in_db_ok_destruct evaluator now db X db₁ evs₁ h1
  subst hdb
  have hstep : ∀ s, evolve_enrollment evaluator now (get_global_user_participation db)
      (storeGet s (map_experiments X)) (storeGet s (map_experiments X))
      (storeGet s (map_enrollments us)) = .ok (storeGet s (map_enrollments us), []) := by
    intro s
    obtain ⟨⟨ro, ev⟩, hf, hlook⟩ := evolve_enrollments_lookup evaluator now
      (get_global_user_participation db) (db.experiments.map Prod.snd) X
      (db.enrollments.map Prod.snd) us evs₁ hE hev s
    have hlook' : storeGet s (map_enrollments us) = ro := hlook
    rw [hlook']
    exact evolve_enrollment_idem evaluator now (get_global_user_participation db)
      _ _ _ ro ev hB hf
  have hrtE : map_experiments ((map_experiments X).map Prod.snd) = map_experiments X :=
    storeOfValues_roundtrip Experiment.slug (map_experiments X)
      (mem_storeOfValues_wf Experiment.slug X) (keys_storeOfValues_nodup Experiment.slug X)
  have hrtN : map_enrollments ((map_enrollments us).map Prod.snd) = map_enrollments us :=
    storeOfValues_roundtrip ExperimentEnrollment.slug (map_enrollments us)
      (mem_storeOfValues_wf ExperimentEnrollment.slug us)
      (keys_storeOfValues_nodup ExperimentEnrollment.slug us)
  have hev₂ : evolve_enrollments evaluator now (get_global_user_participation db)
      ((map_experiments X).map Prod.snd) X ((map_enrollments us).map Prod.snd) =
      .ok ((dedup_slugs ((map_experiments X).map Prod.fst ++
          (map_experiments X).map Prod.fst ++ (map_enrollments us).map Prod.fst)).filterMap
            (fun s => storeGet s (map_enrollments us)), []) := by
    simp only [evolve_enrollments, hrtE, hrtN]
    rw [evolveSlugs_ok_of _ _ (fun s _ => ⟨_, hstep s⟩)]
    have hA : (dedup_slugs ((map_experiments X).map Prod.fst ++
        (map_experiments X).map Prod.fst ++ (map_enrollments us).map Prod.fst)).filterMap
          (fun s => updatedOf (evolve_enrollment evaluator now
            (get_global_user_participation db) (storeGet s (map_experiments X))
            (storeGet s (map_experiments X)) (storeGet s (map_enrollments us)))) =
        (dedup_slugs ((map_experiments X).map Prod.fst ++
          (map_experiments X).map Prod.fst ++ (map_enrollments us).map Prod.fst)).filterMap
            (fun s => storeGet s (map_enrollments us)) := by
      refine filterMap_congr_fun _ _ _ (fun s _ => ?_)
      rw [hstep s]
      rfl
    have hBev : ((dedup_slugs ((map_experiments X).map Prod.fst ++
        (map_experiments X).map Prod.fst ++ (map_enrollments us).map Prod.fst)).map
          (fun s => eventsOf (evolve_enrollment evaluator now
            (get_global_user_participation db) (storeGet s (map_experiments X))
            (storeGet s (map_experiments X)) (storeGet s (map_enrollments us))))).flatten =
        ([] : List EnrollmentChangeEvent) := by
      refine flatten_eq_nil_of_all _ (fun x hx => ?_)
      obtain ⟨s, hs, rfl⟩ := List.mem_map.mp hx
      rw [hstep s]
      rfl
    rw [hA, hBev]
  have hkey₂ : ∀ s' ∈ dedup_slugs ((map_experiments X).map Prod.fst ++
      (map_experiments X).map Prod.fst ++ (map_enrollments us).map Prod.fst),
      ∀ r, storeGet s' (map_enrollments us) = some r → r.slug = s' :=
    fun s' _ r hr => storeGet_storeOfValues_slug ExperimentEnrollment.slug us s' r hr
  have heq : ∀ s, storeGet s (map_enrollments
      ((dedup_slugs ((map_experiments X).map Prod.fst ++
        (map_experiments X).map Prod.fst ++ (map_enrollments us).map Prod.fst)).filterMap
          (fun s => storeGet s (map_enrollments us)))) =
      storeGet s (map_enrollments us) := by
    intro s
    have hout := storeGet_storeOfValues_out ExperimentEnrollment.slug
      (fun s => storeGet s (map_enrollments us))
      (dedup_slugs ((map_experiments X).map Prod.fst ++
        (map_experiments X).map Prod.fst ++ (map_enrollments us).map Prod.fst))
      (nodup_dedup_slugs _) hkey₂ s
    rw [show (map_enrollments
        ((dedup_slugs ((map_experiments X).map Prod.fst ++
          (map_experiments X).map Prod.fst ++ (map_enrollments us).map Prod.fst)).filterMap
            (fun s => storeGet s (map_enrollments us)))) =
        storeOfValues ExperimentEnrollment.slug
          ((dedup_slugs ((map_experiments X).map Prod.fst ++
            (map_experiments X).map Prod.fst ++ (map_enrollments us).map Prod.fst)).filterMap
              (fun s => storeGet s (map_enrollments us))) from rfl, hout]
    by_cases hs : s ∈ dedup_slugs ((map_experiments X).map Prod.fst ++
        (map_experiments X).map Prod.fst ++ (map_enrollments us).map Prod.fst)
    · rw [if_pos hs]
    · rw [if_neg hs]
      symm
      refine storeGet_eq_none_of_not_mem _ s (fun hc => ?_)
      exact hs ((mem_dedup_slugs _ s).mpr (List.mem_append_right _ hc))
  have hchecks₂ : ∀ x ∈ X, (storeGet x.slug (map_enrollments
      ((dedup_slugs ((map_experiments X).map Prod.fst ++
        (map_experiments X).map Prod.fst ++ (map_enrollments us).map Prod.fst)).filterMap
          (fun s => storeGet s (map_enrollments us))))).isSome := by
    intro x hx
    rw [heq x.slug]
    exact hchecks x hx
  have hc := evolve_in_db_ok_construct evaluator now
    { db with experiments := map_experiments X, enrollments := map_enrollments us } X
    ((dedup_slugs ((map_experiments X).map Prod.fst ++
      (map_experiments X).map Prod.fst ++ (map_enrollments us).map Prod.fst)).filterMap
        (fun s => storeGet s (map_enrollments us))) [] hev₂ hchecks₂
  exact ⟨_, hc, rfl, heq, rfl⟩

/-- Witness for C4 at a concrete input: after a first successful evolution
of one new experiment, the second call with the same input returns the same
stored contents and no events. -/
theorem evolve_in_db_idempotent_witness :
    ∃ db₂, evolve_enrollments_in_db trivial_evaluator 0
        ⟨[("exp-a", expA)], [("exp-a", ⟨"exp-a", .NotEnrolled .NotSelected⟩)], []⟩ [expA] =
        .ok (db₂, []) ∧
      db₂.experiments =
        (⟨[("exp-a", expA)], [("exp-a", ⟨"exp-a", .NotEnrolled .NotSelected⟩)],
          []⟩ : Database).experiments ∧
      (∀ s, storeGet s db₂.enrollments = storeGet s
        (⟨[("exp-a", expA)], [("exp-a", ⟨"exp-a", .NotEnrolled .NotSelected⟩)],
          []⟩ : Database).enrollments) ∧
      db₂.meta =
        (⟨[("exp-a", expA)], [("exp-a", ⟨"exp-a", .NotEnrolled .NotSelected⟩)],
          []⟩ : Database).meta :=
  evolve_in_db_idempotent trivial_evaluator 0 ⟨[], [], []⟩ [expA]
    ⟨[("exp-a", expA)], [("exp-a", ⟨"exp-a", .NotEnrolled .NotSelected⟩)], []⟩ []
    trivial_evaluator_returns_slug trivial_evaluator_branches_exist rfl
